import Mathlib

/-
  Verification of the abbrevIso library (ISO-4 journal-title abbreviation)
  against its natural-language specification.

  The JavaScript sources are shallowly embedded: JS strings are modelled as
  `List Char` (Unicode code points; JS UTF-16 index arithmetic coincides with
  code-point arithmetic on the BMP strings handled here), JS `Map`-based
  structures become inductive types, and code that can throw is modelled with
  `Option`/`Except`.  External Unicode operations (NFC/NFKD normalization and
  full case mapping, provided to the JS code by the runtime) are parameters of
  the embedding, bundled in the `Uni` structure; concrete evaluations use the
  `asciiUni` instance, which is faithful on the ASCII inputs they involve
  (NFC and NFKD are the identity on ASCII, and case mapping is the usual
  ASCII one).
-/

set_option maxRecDepth 10000

namespace AbbrevIsoFV

/-! # Part 1: the prefix tree (src/PrefixTree.js)

A node of the JS `PrefixTree` is a `Map` holding the children under
character keys, the overflow bucket under the reserved key `'-'`, and the
has-been-split flag under the reserved key `'?'`.  The embedding gives the
bucket and the flag their own fields; it therefore agrees with the JS code
exactly on keys that avoid the reserved characters `'-'` and `'?'`, which is
the documented contract of the class ("The string should not contain
characters '-' nor '?'"). -/

/- Maximum size of a node, `maxNodeSize` in PrefixTree.js. -/
def maxNodeSize : Nat := 5

inductive PTree (α : Type) : Type where
  | node : (Char → Option (PTree α)) → List (List Char × α) → Bool → PTree α

namespace PTree

def children : PTree α → Char → Option (PTree α)
  | .node ch _ _ => ch

def bucket : PTree α → List (List Char × α)
  | .node _ b _ => b

def hasSplit : PTree α → Bool
  | .node _ _ sp => sp

/- A freshly constructed node: `new Map()` with `'-' ↦ []`. -/
def empty : PTree α := .node (fun _ => none) [] false

/- Functional update of the children map (JS `node.set(c, t)`). -/
def upd (ch : Char → Option (PTree α)) (c : Char) (t : PTree α) :
    Char → Option (PTree α) :=
  fun c' => if c' = c then some t else ch c'

/- One iteration of the loop in `splitNode`: a pair with nonempty remaining
key is pushed down into the child keyed by its first character (created if
missing); a pair with empty remaining key leaves the children untouched. -/
def splitStep (ch : Char → Option (PTree α)) : List Char × α → Char → Option (PTree α)
  | ([], _) => ch
  | (c :: rest, v) =>
    let child := (ch c).getD empty
    upd ch c (.node (child.children) (child.bucket ++ [(rest, v)]) child.hasSplit)

/- `splitNode` from PrefixTree.js: push down every bucket entry with a
nonempty remaining key, keep the entries with empty remaining key, and mark
the node as split. -/
def splitNode : PTree α → PTree α
  | .node ch b _ =>
    .node (b.foldl splitStep ch) (b.filter (fun pv => pv.1.isEmpty)) true

/- The deposit at the end of `add`: push the residual pair into the bucket
and split the node when the bucket exceeds `maxNodeSize`. -/
def deposit (t : PTree α) (pos : List Char) (v : α) : PTree α :=
  match t with
  | .node ch b sp =>
    if (b ++ [(pos, v)]).length > maxNodeSize then splitNode (.node ch (b ++ [(pos, v)]) sp)
    else .node ch (b ++ [(pos, v)]) sp

/- `add` from PrefixTree.js.  The JS loop walks down existing children; at a
split node it creates a missing child (a fresh empty node) and continues
inside it — continuing inside a fresh empty node deposits the rest of the
key there, which is what the recursive call on `empty` does. -/
def add (t : PTree α) (pos : List Char) (v : α) : PTree α :=
  match pos, t with
  | [], t => t.deposit [] v
  | c :: rest, .node ch b sp =>
    match ch c with
    | some child => .node (upd ch c (child.add rest v)) b sp
    | none =>
      if sp then .node (upd ch c (empty.add rest v)) b sp
      else deposit (.node ch b sp) (c :: rest) v

/- The pair-collecting walk of `get` from PrefixTree.js: accumulate the
bucket of every node on the path along `s`, stopping at the first missing
child. -/
def getPairs (t : PTree α) : List Char → List (List Char × α)
  | [] => t.bucket
  | c :: rest =>
    match t.children c with
    | some child => t.bucket ++ child.getPairs rest
    | none => t.bucket

/- `get` from PrefixTree.js (returns the attached objects only). -/
def get (t : PTree α) (s : List Char) : List α :=
  (t.getPairs s).map Prod.snd

/- Follow a path of characters through the children maps. -/
def follow (t : PTree α) : List Char → Option (PTree α)
  | [] => some t
  | c :: rest =>
    match t.children c with
    | some child => child.follow rest
    | none => none

end PTree

/- A key/value pair is `stored` in a tree if some node on the path along the
key holds the corresponding residual in its bucket. -/
def stored (t : PTree α) (k : List Char) (v : α) : Prop :=
  ∃ d n, t.follow (k.take d) = some n ∧ (k.drop d, v) ∈ n.bucket

/- Building a tree from a sequence of insertions (`add` calls). -/
def buildTree (ins : List (List Char × α)) : PTree α :=
  ins.foldl (fun t kv => t.add kv.1 kv.2) PTree.empty

namespace PTree

@[simp] theorem children_node (ch : Char → Option (PTree α)) (b sp) :
    (PTree.node ch b sp).children = ch := rfl

@[simp] theorem bucket_node (ch : Char → Option (PTree α)) (b sp) :
    (PTree.node ch b sp).bucket = b := rfl

@[simp] theorem hasSplit_node (ch : Char → Option (PTree α)) (b sp) :
    (PTree.node ch b sp).hasSplit = sp := rfl

/- One `splitNode`/`deposit` step extends a node: children are unchanged and
the bucket only grows. -/
def ext1 (n n' : PTree α) : Prop :=
  n'.children = n.children ∧ ∀ pv, pv ∈ n.bucket → pv ∈ n'.bucket

theorem ext1_refl (n : PTree α) : ext1 n n := ⟨rfl, fun _ h => h⟩

theorem follow_cons_match (t : PTree α) (c : Char) (p : List Char) :
    t.follow (c :: p) =
      (match t.children c with
       | some child => child.follow p
       | none => none) := by
  cases t with
  | node ch b sp => rfl

theorem follow_cons_eq {t : PTree α} {c : Char} {child : PTree α}
    (hch : t.children c = some child) (p : List Char) :
    t.follow (c :: p) = child.follow p := by
  rw [follow_cons_match, hch]

theorem follow_cons_some {t : PTree α} {c : Char} {p : List Char} {n : PTree α}
    (h : t.follow (c :: p) = some n) :
    ∃ child, t.children c = some child ∧ child.follow p = some n := by
  rw [follow_cons_match] at h
  rcases hch : t.children c with _ | child
  · rw [hch] at h; cases h
  · rw [hch] at h; exact ⟨child, rfl, h⟩

theorem follow_children_eq {n n' : PTree α} (h : n'.children = n.children)
    (c : Char) (p : List Char) : n'.follow (c :: p) = n.follow (c :: p) := by
  rw [follow_cons_match, follow_cons_match, h]

theorem splitStep_pres {ch : Char → Option (PTree α)} {c : Char} {n : PTree α}
    (pv : List Char × α) (h : ch c = some n) :
    ∃ n', splitStep ch pv c = some n' ∧ ext1 n n' := by
  match pv with
  | ([], v) => exact ⟨n, h, ext1_refl n⟩
  | (c0 :: rest, v) =>
    by_cases hc : c = c0
    · subst hc
      refine ⟨PTree.node n.children (n.bucket ++ [(rest, v)]) n.hasSplit, ?_, ?_, ?_⟩
      · simp [splitStep, upd, h]
      · simp
      · intro pv hpv
        simp only [bucket_node]
        exact List.mem_append_left _ hpv
    · exact ⟨n, by simp [splitStep, upd, hc, h], ext1_refl n⟩

theorem splitStep_new (ch : Char → Option (PTree α)) (c : Char) (rest : List Char)
    (v : α) :
    ∃ n', splitStep ch (c :: rest, v) c = some n' ∧ (rest, v) ∈ n'.bucket := by
  refine ⟨PTree.node ((ch c).getD empty).children
    (((ch c).getD empty).bucket ++ [(rest, v)]) ((ch c).getD empty).hasSplit, ?_, ?_⟩
  · simp [splitStep, upd]
  · simp

theorem foldl_splitStep_pres (pairs : List (List Char × α))
    {ch : Char → Option (PTree α)} {c : Char} {n : PTree α} (h : ch c = some n) :
    ∃ n', (pairs.foldl splitStep ch) c = some n' ∧ ext1 n n' := by
  induction pairs generalizing ch n with
  | nil => exact ⟨n, h, ext1_refl n⟩
  | cons pv tl ih =>
    obtain ⟨n1, h1, hx1⟩ := splitStep_pres pv h
    obtain ⟨n2, h2, hx2⟩ := ih h1
    exact ⟨n2, h2, ⟨hx2.1.trans hx1.1, fun q hq => hx2.2 q (hx1.2 q hq)⟩⟩

theorem foldl_splitStep_new (pairs : List (List Char × α))
    {ch : Char → Option (PTree α)} {c : Char} {rest : List Char} {v : α}
    (h : (c :: rest, v) ∈ pairs) :
    ∃ n', (pairs.foldl splitStep ch) c = some n' ∧ (rest, v) ∈ n'.bucket := by
  induction pairs generalizing ch with
  | nil => cases h
  | cons pv tl ih =>
    rcases List.mem_cons.1 h with heq | htl
    · subst heq
      obtain ⟨n1, h1, hm1⟩ := splitStep_new ch c rest v
      obtain ⟨n2, h2, hx2⟩ := foldl_splitStep_pres tl h1
      exact ⟨n2, h2, hx2.2 _ hm1⟩
    · exact ih htl

theorem splitNode_bucket_nil {t : PTree α} {v : α} (h : (([] : List Char), v) ∈ t.bucket) :
    (([] : List Char), v) ∈ (splitNode t).bucket := by
  cases t with
  | node ch b sp =>
    simp only [splitNode, bucket_node]
    exact List.mem_filter.2 ⟨h, by simp⟩

theorem splitNode_bucket_cons {t : PTree α} {c : Char} {rest : List Char} {v : α}
    (h : (c :: rest, v) ∈ t.bucket) :
    ∃ n', (splitNode t).children c = some n' ∧ (rest, v) ∈ n'.bucket := by
  cases t with
  | node ch b sp => exact foldl_splitStep_new b h

theorem splitNode_children_pres {t : PTree α} {c : Char} {n : PTree α}
    (h : t.children c = some n) :
    ∃ n', (splitNode t).children c = some n' ∧ ext1 n n' := by
  cases t with
  | node ch b sp => exact foldl_splitStep_pres b h

theorem take_eq_cons_split {k : List α} {d : Nat} {c0 : α} {p' : List α}
    (h : k.take d = c0 :: p') : ∃ d0 kt, d = d0 + 1 ∧ k = c0 :: kt ∧ p' = kt.take d0 := by
  cases d with
  | zero => simp at h
  | succ d0 =>
    cases k with
    | nil => simp at h
    | cons ck kt =>
      rw [List.take_succ_cons] at h
      injection h with h1 h2
      exact ⟨d0, kt, rfl, by rw [h1], h2.symm⟩

theorem take_eq_nil_drop {k : List α} {d : Nat} (h : k.take d = []) : k.drop d = k := by
  rcases List.take_eq_nil_iff.1 h with h0 | h0
  · subst h0; simp
  · subst h0; simp

/- A bucket entry reached at the end of a split dive is `stored`. -/
theorem deposit_mem_self (t : PTree α) (pos : List Char) (v : α) :
    stored (t.deposit pos v) pos v := by
  cases t with
  | node ch b sp =>
    simp only [deposit]
    split
    · cases pos with
      | nil =>
        refine ⟨0, _, rfl, ?_⟩
        exact splitNode_bucket_nil (by simp)
      | cons c rest =>
        have hmem : (c :: rest, v) ∈ (PTree.node ch (b ++ [(c :: rest, v)]) sp).bucket := by
          simp
        obtain ⟨n', hn', hm⟩ := splitNode_bucket_cons hmem
        refine ⟨1, n', ?_, ?_⟩
        · rw [show List.take 1 (c :: rest) = [c] by simp]
          simp [follow, hn']
        · simpa using hm
    · exact ⟨0, _, rfl, by simp⟩

theorem deposit_stored_pres {t : PTree α} {k : List Char} {v : α}
    (h : stored t k v) (pos : List Char) (v' : α) : stored (t.deposit pos v') k v := by
  cases t with
  | node ch b sp =>
    obtain ⟨d, n, hf, hb⟩ := h
    rcases hk : k.take d with _ | ⟨c0, p'⟩
    · -- the entry sits in the root bucket, with residual equal to all of k
      rw [hk] at hf
      have hn : n = PTree.node ch b sp := by
        simpa [follow] using hf.symm
      subst hn
      rw [take_eq_nil_drop hk] at hb
      simp only [deposit]
      split
      · cases hkk : k with
        | nil =>
          refine ⟨0, _, rfl, ?_⟩
          subst hkk
          exact splitNode_bucket_nil (List.mem_append_left _ hb)
        | cons c rest =>
          subst hkk
          have hmem : (c :: rest, v) ∈ (PTree.node ch (b ++ [(pos, v')]) sp).bucket :=
            List.mem_append_left _ hb
          obtain ⟨n', hn', hm⟩ := splitNode_bucket_cons hmem
          refine ⟨1, n', ?_, ?_⟩
          · rw [show List.take 1 (c :: rest) = [c] by simp]
            simp [follow, hn']
          · simpa using hm
      · exact ⟨0, _, rfl, List.mem_append_left _ hb⟩
    · -- the entry sits below a child; deposit leaves that child's subtree intact
      rw [hk] at hf
      obtain ⟨ch0, hch, hf'⟩ := follow_cons_some hf
      simp only [children_node] at hch
      simp only [deposit]
      split
      · have hch' : (PTree.node ch (b ++ [(pos, v')]) sp).children c0 = some ch0 := by
          simpa using hch
        obtain ⟨ch0', hch0', hx⟩ := splitNode_children_pres hch'
        cases p' with
        | nil =>
          have hn : n = ch0 := by simpa [follow] using hf'.symm
          subst hn
          refine ⟨d, ch0', ?_, hx.2 _ hb⟩
          rw [hk, follow_cons_eq hch0', follow]
        | cons c1 p'' =>
          refine ⟨d, n, ?_, hb⟩
          rw [hk, follow_cons_eq hch0', follow_children_eq hx.1 c1 p'']
          exact hf'
      · refine ⟨d, n, ?_, hb⟩
        rw [hk, follow_cons_eq (show (PTree.node ch (b ++ [(pos, v')]) sp).children c0
          = some ch0 by simpa using hch)]
        exact hf'

theorem stored_lift {t' : PTree α} {c : Char} {child : PTree α} {k : List Char} {v : α}
    (hc : t'.children c = some child) (h : stored child k v) : stored t' (c :: k) v := by
  obtain ⟨d, n, hf, hb⟩ := h
  refine ⟨d + 1, n, ?_, ?_⟩
  · rw [List.take_succ_cons]
    simp only [follow, hc]
    exact hf
  · rwa [List.drop_succ_cons]

theorem add_stored_self (t : PTree α) (k : List Char) (v : α) : stored (t.add k v) k v := by
  induction k generalizing t with
  | nil =>
    cases t with
    | node ch b sp => exact deposit_mem_self _ _ _
  | cons c rest ih =>
    cases t with
    | node ch b sp =>
      rcases hch : ch c with _ | child
      · cases sp with
        | true =>
          have he : (PTree.node ch b true).add (c :: rest) v
              = PTree.node (upd ch c (empty.add rest v)) b true := by
            simp [add, hch]
          rw [he]
          exact stored_lift (by simp [upd]) (ih empty)
        | false =>
          have he : (PTree.node ch b false).add (c :: rest) v
              = deposit (PTree.node ch b false) (c :: rest) v := by
            simp [add, hch]
          rw [he]
          exact deposit_mem_self _ _ _
      · have he : (PTree.node ch b sp).add (c :: rest) v
            = PTree.node (upd ch c (child.add rest v)) b sp := by
          simp [add, hch]
        rw [he]
        exact stored_lift (by simp [upd]) (ih child)

theorem add_stored_pres (k' : List Char) (v' : α) :
    ∀ {t : PTree α} {k : List Char} {v : α},
      stored t k v → stored (t.add k' v') k v := by
  induction k' with
  | nil =>
    intro t k v h
    cases t with
    | node ch b sp => exact deposit_stored_pres h _ _
  | cons c rest ih =>
    intro t k v h
    cases t with
    | node ch b sp =>
      obtain ⟨d, n, hf, hb⟩ := h
      rcases hch : ch c with _ | child
      · cases sp with
        | true =>
          -- a fresh child is created at `c`; existing paths are unaffected
          have he : (PTree.node ch b true).add (c :: rest) v'
              = PTree.node (upd ch c (empty.add rest v')) b true := by
            simp [add, hch]
          rw [he]
          rcases hk : k.take d with _ | ⟨c0, p'⟩
          · rw [hk] at hf
            have hn : n = PTree.node ch b true := by simpa [follow] using hf.symm
            subst hn
            rw [take_eq_nil_drop hk] at hb
            exact ⟨0, _, rfl, by simpa using hb⟩
          · rw [hk] at hf
            obtain ⟨ch0, hch0, hf'⟩ := follow_cons_some hf
            simp only [children_node] at hch0
            have hc0c : ¬c0 = c := by
              intro he'; rw [he', hch] at hch0; cases hch0
            refine ⟨d, n, ?_, hb⟩
            rw [hk, follow_cons_eq (show (PTree.node (upd ch c (empty.add rest v')) b
              true).children c0 = some ch0 by simp [upd, hc0c, hch0])]
            exact hf'
        | false =>
          have he : (PTree.node ch b false).add (c :: rest) v'
              = deposit (PTree.node ch b false) (c :: rest) v' := by
            simp [add, hch]
          rw [he]
          exact deposit_stored_pres ⟨d, n, hf, hb⟩ _ _
      · -- descend into the existing child at `c`
        have he : (PTree.node ch b sp).add (c :: rest) v'
            = PTree.node (upd ch c (child.add rest v')) b sp := by
          simp [add, hch]
        rw [he]
        rcases hk : k.take d with _ | ⟨c0, p'⟩
        · rw [hk] at hf
          have hn : n = PTree.node ch b sp := by simpa [follow] using hf.symm
          subst hn
          rw [take_eq_nil_drop hk] at hb
          exact ⟨0, _, rfl, by simpa using hb⟩
        · obtain ⟨d0, kt, hd, hkk, hp⟩ := take_eq_cons_split hk
          rw [hk] at hf
          obtain ⟨ch0, hch0, hf'⟩ := follow_cons_some hf
          simp only [children_node] at hch0
          by_cases hc0c : c0 = c
          · subst hc0c
            have hcc : ch0 = child := by
              rw [hch] at hch0
              exact (Option.some.inj hch0).symm
            subst hcc
            have hst : stored ch0 kt v := by
              refine ⟨d0, n, by rw [← hp]; exact hf', ?_⟩
              have hdk : k.drop d = kt.drop d0 := by rw [hkk, hd, List.drop_succ_cons]
              rwa [hdk] at hb
            have hlift := stored_lift (show (PTree.node (upd ch c0 (ch0.add rest v')) b
              sp).children c0 = some (ch0.add rest v') by simp [upd]) (ih hst)
            rwa [← hkk] at hlift
          · refine ⟨d, n, ?_, hb⟩
            rw [hk, follow_cons_eq (show (PTree.node (upd ch c (child.add rest v')) b
              sp).children c0 = some ch0 by simp [upd, hc0c, hch0])]
            exact hf'

theorem bucket_sub_getPairs_self (t : PTree α) (s : List Char) :
    ∀ pv ∈ t.bucket, pv ∈ t.getPairs s := by
  intro pv hpv
  cases s with
  | nil => simpa [getPairs] using hpv
  | cons c rest =>
    simp only [getPairs]
    rcases t.children c with _ | child
    · exact hpv
    · exact List.mem_append_left _ hpv

theorem bucket_sub_getPairs (p : List Char) :
    ∀ {t n : PTree α}, t.follow p = some n → ∀ {s : List Char}, (∃ r, p ++ r = s) →
      ∀ pv ∈ n.bucket, pv ∈ t.getPairs s := by
  induction p with
  | nil =>
    intro t n hf s _
    have hn : n = t := by simpa [follow] using hf.symm
    subst hn
    exact bucket_sub_getPairs_self _ _
  | cons c p' ih =>
    intro t n hf s hpre
    obtain ⟨r, rfl⟩ := hpre
    obtain ⟨child, hch, hf'⟩ := follow_cons_some hf
    intro pv hpv
    have hg : t.getPairs (c :: (p' ++ r)) = t.bucket ++ child.getPairs (p' ++ r) := by
      cases t with
      | node ch b sp =>
        simp only [children_node] at hch
        simp [getPairs, hch]
    rw [List.cons_append, hg]
    exact List.mem_append_right _ (ih hf' ⟨r, rfl⟩ pv hpv)

theorem stored_mem_get {t : PTree α} {k : List Char} {v : α} (h : stored t k v)
    {s : List Char} (hpre : ∃ r, k ++ r = s) : v ∈ t.get s := by
  obtain ⟨d, n, hf, hb⟩ := h
  obtain ⟨r, rfl⟩ := hpre
  have hp : ∃ r', k.take d ++ r' = k ++ r :=
    ⟨k.drop d ++ r, by rw [← List.append_assoc, List.take_append_drop]⟩
  have := bucket_sub_getPairs _ hf hp _ hb
  exact List.mem_map.2 ⟨_, this, rfl⟩

theorem foldl_add_stored {ins : List (List Char × α)} {k : List Char} {v : α}
    {t : PTree α} (h : (k, v) ∈ ins ∨ stored t k v) :
    stored (ins.foldl (fun t kv => t.add kv.1 kv.2) t) k v := by
  induction ins generalizing t with
  | nil =>
    rcases h with h | h
    · cases h
    · exact h
  | cons kv0 tl ih =>
    simp only [List.foldl_cons]
    apply ih
    rcases h with hmem | hst
    · rcases List.mem_cons.1 hmem with heq | htl
      · right
        rw [← heq]
        exact add_stored_self t k v
      · left; exact htl
    · right; exact add_stored_pres _ _ hst

end PTree

/-- C1: for every sequence of `add(key, object)` insertions into a
`PrefixTree` (with node splitting at `maxNodeSize = 5`) and every query
string `s`, if some inserted key `k` is a prefix of `s`, then the object
inserted with `k` occurs in the result of `get(s)` — `get` has no false
negatives.  The hypotheses on the characters restate the documented contract
of the JS class (keys and queries avoid the reserved Map slots `'-'` and
`'?'`), under which the embedding is exact. -/
theorem prefixTree_get_complete {α : Type} (ins : List (List Char × α)) (k : List Char)
    (v : α) (s : List Char)
    (_hkeys : ∀ kv ∈ ins, ∀ c ∈ kv.1, c ≠ '-' ∧ c ≠ '?')
    (_hs : ∀ c ∈ s, c ≠ '-' ∧ c ≠ '?')
    (hmem : (k, v) ∈ ins) (hpre : ∃ r, k ++ r = s) :
    v ∈ (buildTree ins).get s :=
  PTree.stored_mem_get (PTree.foldl_add_stored (Or.inl hmem)) hpre

/-- Witness for C1 at a concrete run: after inserting seven keys (enough to
force a node split at the root), the value added under `"ab"` is returned by
`get "abc"`. -/
theorem prefixTree_get_complete_witness :
    (1 : Nat) ∈ (buildTree [("ab".data, 0), ("ab".data, 1), ("ac".data, 2),
      ("b".data, 3), ("bc".data, 4), ("ca".data, 5), ("cb".data, 6)]).get "abc".data :=
  prefixTree_get_complete _ "ab".data 1 _ (by decide) (by decide) (by decide)
    ⟨['c'], rfl⟩

/-! # Part 2: collation utilities (collation.js)

The Unicode operations supplied by the JS runtime — NFC and NFKD
normalization and full case mapping — are external dependencies of the
library.  They are modelled as the fields of a `Uni` parameter (NFKD as a
per-character decomposition; canonical reordering of multiple combining
marks is not modelled).  Theorems quantified over `U : Uni` hold for every
instantiation, in particular the real one; concrete evaluations use
`asciiUni`, which agrees with the real operations on the strings involved
(NFC and NFKD are the identity on ASCII and the case maps are ASCII). -/

structure Uni where
  nfc : List Char → List Char
  nfkd : Char → List Char
  toLower : List Char → List Char
  toUpper : List Char → List Char

def asciiLowerChar (c : Char) : Char :=
  if 'A' ≤ c ∧ c ≤ 'Z' then Char.ofNat (c.toNat + 32) else c

def asciiUpperChar (c : Char) : Char :=
  if 'a' ≤ c ∧ c ≤ 'z' then Char.ofNat (c.toNat - 32) else c

def asciiUni : Uni :=
  ⟨fun s => s, fun c => [c], List.map asciiLowerChar, List.map asciiUpperChar⟩

/- The JS regex `\s` class (ECMAScript WhiteSpace ∪ LineTerminator). -/
def isJsWs (c : Char) : Bool :=
  ([9, 10, 11, 12, 13, 32, 0xa0, 0x1680, 0x2028, 0x2029, 0x202f, 0x205f, 0x3000,
    0xfeff] : List Nat).contains c.toNat
  || (decide (0x2000 ≤ c.toNat) && decide (c.toNat ≤ 0x200a))

/- Characters matched by `collation.newlineRegex` (besides the `\r\n` pair). -/
def isNewlineChar (c : Char) : Bool :=
  ([10, 11, 12, 13, 0x85, 0x2028, 0x2029] : List Nat).contains c.toNat

/- Characters NOT matched by the JS regex `.` (line terminators). -/
def isDotExcluded (c : Char) : Bool :=
  ([10, 13, 0x2028, 0x2029] : List Nat).contains c.toNat

def apoChar : Char := Char.ofNat 39

def rsqChar : Char := Char.ofNat 0x2019

/- `collation.boundariesRegex`: `[-\s–—_.,:;!|=+*\\/"()&#%@$?]`. -/
def boundaryChars : List Char := "-–—_.,:;!|=+*\\/\"()&#%@$?".data

def isBoundary (c : Char) : Bool := boundaryChars.contains c || isJsWs c

/- The planner's local `boundariesRegex` in `makeAbbreviation`
(`[-\s–—_.,:;!|=*\\/"()#%@$]`: the collation set without `+&?`). -/
def plannerBoundaryChars : List Char := "-–—_.,:;!|=*\\/\"()#%@$".data

def isPlannerBoundary (c : Char) : Bool := plannerBoundaryChars.contains c || isJsWs c

/- Splitting a raw string at `collation.newlineRegex` matches. -/
def splitLines : List Char → List (List Char)
  | [] => [[]]
  | c :: cs =>
    if c.toNat = 13 then
      match cs with
      | c2 :: cs2 =>
        if c2.toNat = 10 then [] :: splitLines cs2 else [] :: splitLines (c2 :: cs2)
      | [] => [[], []]
    else if isNewlineChar c then [] :: splitLines cs
    else
      match splitLines cs with
      | [] => [[c]]
      | l :: ls => (c :: l) :: ls

/- The fixed character rewrites at the start of `collation.normalize`
(scharfes S, crossed D, eth, thorn, H-bar, L-stroke, ligatures, dotless i,
o-stroke, and the stripped middle dot / double prime / replacement char). -/
def rewriteChar (c : Char) : List Char :=
  if c = 'ß' then "ss".data else if c = 'ẞ' then "SS".data
  else if c = 'đ' then ['d'] else if c = 'Đ' then ['D']
  else if c = 'ð' then ['d'] else if c = 'Ð' then ['D']
  else if c = 'þ' then "th".data else if c = 'Þ' then "TH".data
  else if c = 'ħ' then ['h'] else if c = 'Ħ' then ['H']
  else if c = 'ł' then ['l'] else if c = 'Ł' then ['L']
  else if c = 'œ' then "oe".data else if c = 'Œ' then "Oe".data
  else if c = 'æ' then "ae".data else if c = 'Æ' then "Ae".data
  else if c = 'ı' then ['i']
  else if c = 'ø' then ['o'] else if c = 'Ø' then ['O']
  else if c.toNat = 0xb7 ∨ c.toNat = 0x2ba ∨ c.toNat = 0xfffd then []
  else [c]

/- Combining marks in U+0300–U+036F, removed after decomposition. -/
def isCombining (c : Char) : Bool :=
  decide (0x300 ≤ c.toNat) && decide (c.toNat ≤ 0x36f)

/- `collation.normalize`: fixed rewrites, NFKD decomposition, then removal
of combining marks. -/
def normalize (U : Uni) (s : List Char) : List Char :=
  (((s.flatMap rewriteChar).flatMap U.nfkd).filter (fun c => !isCombining c))

/- `collation.cEquiv`. -/
def cEquiv (U : Uni) (s t : List Char) : Bool :=
  U.toLower (normalize U s) == U.toLower (normalize U t)

/- Whitespace-run collapse (`.replace(/\s+/gu, ' ')`). -/
def collapseWsGo (prevWs : Bool) : List Char → List Char
  | [] => []
  | c :: cs =>
    if isJsWs c then
      if prevWs then collapseWsGo true cs else ' ' :: collapseWsGo true cs
    else c :: collapseWsGo false cs

def collapseWs (s : List Char) : List Char := collapseWsGo false s

/- `.replace(/^\s/gu, '')`: one leading whitespace character is removed. -/
def dropOneLeadingWs : List Char → List Char
  | [] => []
  | c :: cs => if isJsWs c then cs else c :: cs

/- `.replace(/\s$/gu, '')`: one trailing whitespace character is removed. -/
def dropOneTrailingWs (s : List Char) : List Char :=
  (dropOneLeadingWs s.reverse).reverse

/- `.replace(/kh/g, '')`. -/
def removeKh : List Char → List Char
  | 'k' :: 'h' :: cs => removeKh cs
  | c :: cs => c :: removeKh cs
  | [] => []

/- `collation.promiscuouslyNormalize`. -/
def promiscuouslyNormalize (U : Uni) (s : List Char) : List Char :=
  let s1 := U.toLower (normalize U s)
  let s2 := s1.map (fun c => if isBoundary c then ' ' else c)
  let s3 := dropOneTrailingWs (dropOneLeadingWs (collapseWs s2))
  let s4 := s3.map (fun c => if ('a' ≤ c ∧ c ≤ 'z') ∨ c = ' ' then c else ' ')
  (removeKh s4).filter (fun c => c != 'h')

/- The outcome of one iteration of the `getCollatingMatch` loop: the walk
is finished (`j ≥ |t|`), or it pushes one pair onto the two result arrays
and continues at the given suffixes, or no branch applies and the function
returns `false`. -/
inductive GStep : Type where
  | done : GStep
  | push : List Char → List Char → List Char → List Char → GStep
  | fail : GStep

/- One iteration of the loop of `collation.getCollatingMatch`, on the
remaining suffixes of `s` and `t`; the branches appear in the JS order:
epsilon-at-end-of-`s`, two-to-two, one-to-two (with its epsilon subcase),
two-to-one (with its epsilon subcase), one-to-one, epsilon-in-`s`. -/
def gcmStep (U : Uni) : List Char → List Char → GStep
  | _, [] => .done
  | [], t1 :: ts =>
    if cEquiv U [] [t1] then .push [] [t1] [] ts else .fail
  | s1 :: ss', t1 :: ts =>
    if (match ss', ts with
        | s2 :: _, t2 :: _ => cEquiv U [s1, s2] [t1, t2]
        | _, _ => false) then
      .push [s1] [t1] ss' ts
    else if (match ts with
             | t2 :: _ => cEquiv U [s1] [t1, t2] && !cEquiv U [t2] []
             | [] => false) then
      if cEquiv U [] [t1] then .push [] [t1] (s1 :: ss') ts
      else
        match ts with
        | t2 :: ts' => .push [s1] [t1, t2] ss' ts'
        | [] => .fail
    else if (match ss' with
             | s2 :: _ => cEquiv U [s1, s2] [t1] && !cEquiv U [s2] []
             | [] => false) then
      if cEquiv U [s1] [] then .push [s1] [] ss' (t1 :: ts)
      else
        match ss' with
        | s2 :: ss'' => .push [s1, s2] [t1] ss'' ts
        | [] => .fail
    else if cEquiv U [s1] [t1] then .push [s1] [t1] ss' ts
    else if cEquiv U [s1] [] then .push [s1] [] ss' (t1 :: ts)
    else .fail

/- The loop of `collation.getCollatingMatch`.  The fuel argument only
forces termination; each step consumes at least one character of
`ss ++ tt`, so the initial fuel `|s| + |t| + 1` is never exhausted. -/
def gcmGo (U : Uni) : Nat → List Char → List Char →
    Option (List (List Char × List Char))
  | 0, _, _ => none
  | fuel + 1, ss, tt =>
    match gcmStep U ss tt with
    | .done => some []
    | .fail => none
    | .push a b ss' tt' => (gcmGo U fuel ss' tt').map (fun r => (a, b) :: r)

/- `collation.getCollatingMatch`. -/
def getCollatingMatch (U : Uni) (s t : List Char) :
    Option (List (List Char × List Char)) :=
  gcmGo U (s.length + t.length + 1) s t

/- Every pair pushed by a step either satisfies `cEquiv` outright, or was
pushed by the two-to-two ligature branch, whose guard only relates the pair
extended by one further character on each side. -/
def alignedPair (U : Uni) (p : List Char × List Char) : Prop :=
  cEquiv U p.1 p.2 = true ∨
    ∃ a b x y, p = ([a], [b]) ∧ cEquiv U [a, x] [b, y] = true

theorem gcmStep_done {U : Uni} {ss tt : List Char}
    (h : gcmStep U ss tt = .done) : tt = [] := by
  cases tt with
  | nil => rfl
  | cons t1 ts =>
    cases ss with
    | nil =>
      simp only [gcmStep] at h
      split at h <;> cases h
    | cons s1 ss0 =>
      simp only [gcmStep] at h
      split at h
      · cases h
      · split at h
        · split at h
          · cases h
          · split at h <;> cases h
        · split at h
          · split at h
            · cases h
            · split at h <;> cases h
          · split at h
            · cases h
            · split at h <;> cases h

theorem gcmStep_push {U : Uni} {ss tt a b ss' tt' : List Char}
    (h : gcmStep U ss tt = .push a b ss' tt') :
    a ++ ss' = ss ∧ b ++ tt' = tt ∧
      ss'.length + tt'.length < ss.length + tt.length ∧ alignedPair U (a, b) := by
  cases tt with
  | nil => simp [gcmStep] at h
  | cons t1 ts =>
    cases ss with
    | nil =>
      simp only [gcmStep] at h
      split at h
      · cases h
        exact ⟨rfl, rfl, by simp, Or.inl (by assumption)⟩
      · cases h
    | cons s1 ss0 =>
      simp only [gcmStep] at h
      split at h
      · -- two-to-two branch
        rename_i hcond
        cases h
        refine ⟨rfl, rfl, by simp only [List.length_cons]; omega, Or.inr ?_⟩
        rcases ss' with _ | ⟨s2, sr⟩ <;> rcases tt' with _ | ⟨t2, tr⟩ <;> simp at hcond
        exact ⟨s1, t1, s2, t2, rfl, hcond⟩
      · split at h
        · rename_i hcond3
          split at h
          · cases h
            exact ⟨rfl, rfl, by simp only [List.length_cons]; omega,
              Or.inl (by assumption)⟩
          · rcases ts with _ | ⟨t2, tr⟩
            · cases h
            · simp only [Bool.and_eq_true] at hcond3
              cases h
              exact ⟨rfl, rfl, by simp only [List.length_cons]; omega,
                Or.inl hcond3.1⟩
        · split at h
          · rename_i hcond4
            split at h
            · cases h
              exact ⟨rfl, rfl, by simp only [List.length_cons]; omega,
                Or.inl (by assumption)⟩
            · rcases ss0 with _ | ⟨s2, sr⟩
              · cases h
              · simp only [Bool.and_eq_true] at hcond4
                cases h
                exact ⟨rfl, rfl, by simp only [List.length_cons]; omega,
                  Or.inl hcond4.1⟩
          · split at h
            · cases h
              exact ⟨rfl, rfl, by simp only [List.length_cons]; omega,
                Or.inl (by assumption)⟩
            · split at h
              · cases h
                exact ⟨rfl, rfl, by simp only [List.length_cons]; omega,
                  Or.inl (by assumption)⟩
              · cases h

/- The collecting loop yields only aligned pairs, and the two columns of
the result decompose `ss` (an initial segment) and `tt` (exactly). -/
theorem gcmGo_props (U : Uni) :
    ∀ fuel ss tt r, gcmGo U fuel ss tt = some r →
      (∀ p ∈ r, alignedPair U p) ∧
        (∃ rest, (r.map Prod.fst).flatten ++ rest = ss) ∧
        (r.map Prod.snd).flatten = tt := by
  intro fuel
  induction fuel with
  | zero => intro ss tt r h; simp [gcmGo] at h
  | succ fuel ih =>
    intro ss tt r h
    simp only [gcmGo] at h
    rcases hstep : gcmStep U ss tt with _ | ⟨a, b, ss', tt'⟩ | _
    · rw [hstep] at h
      cases h
      refine ⟨by simp, ⟨ss, by simp⟩, ?_⟩
      simp [gcmStep_done hstep]
    · rw [hstep] at h
      obtain ⟨r', hr', rfl⟩ := Option.map_eq_some'.1 h
      obtain ⟨hpairs, ⟨rest, hfst⟩, hsnd⟩ := ih ss' tt' r' hr'
      obtain ⟨hsa, hsb, _, hpair⟩ := gcmStep_push hstep
      refine ⟨?_, ⟨rest, ?_⟩, ?_⟩
      · intro p hp
        rcases List.mem_cons.1 hp with rfl | hp'
        · exact hpair
        · exact hpairs p hp'
      · simp only [List.map_cons, List.flatten_cons, List.append_assoc]
        rw [hfst, hsa]
      · simp only [List.map_cons, List.flatten_cons]
        rw [hsnd, hsb]
    · rw [hstep] at h
      cases h

/-- C4 counterexample: `getCollatingMatch("æ·e", "ae")` succeeds, but its
first aligned pair is `('æ', 'a')`, and `cEquiv('æ', 'a')` is false (`æ`
normalizes to `ae`).  The two-to-two branch fires on `cEquiv("æ·","ae")`
without checking the one-to-one equivalence of the pair it pushes.  All
characters involved are handled before NFKD, so `asciiUni` agrees with the
real Unicode operations here. -/
theorem getCollatingMatch_cEquiv_cex :
    ∃ r, getCollatingMatch asciiUni "æ·e".data "ae".data = some r ∧
      ¬ ∀ p ∈ r, cEquiv asciiUni p.1 p.2 = true :=
  ⟨_, rfl, by decide⟩

/-- C4 (amended): whenever `getCollatingMatch(s, t)` succeeds it returns two
equal-length sequences (here: one list of pairs), and every aligned pair
either satisfies `cEquiv`, or was produced by the two-to-two ligature
lookahead: both entries are single characters whose one-character extensions
satisfy `cEquiv`. -/
theorem getCollatingMatch_aligned (U : Uni) (s t : List Char)
    (r : List (List Char × List Char)) (h : getCollatingMatch U s t = some r) :
    ∀ p ∈ r, cEquiv U p.1 p.2 = true ∨
      ∃ a b x y, p = ([a], [b]) ∧ cEquiv U [a, x] [b, y] = true :=
  fun p hp => (gcmGo_props U _ s t r h).1 p hp

/-- Witness for the amended C4 on the example documented in collation.js
(`s = "dæl·lete"`, `t = "daell"`). -/
theorem getCollatingMatch_aligned_witness :
    ∃ r, getCollatingMatch asciiUni "dæl·lete".data "daell".data = some r ∧
      ∀ p ∈ r, cEquiv asciiUni p.1 p.2 = true ∨
        ∃ a b x y, p = ([a], [b]) ∧ cEquiv asciiUni [a, x] [b, y] = true :=
  ⟨_, rfl, getCollatingMatch_aligned asciiUni "dæl·lete".data "daell".data _ rfl⟩

/-- C10: whenever `getCollatingMatch(s, t)` succeeds, the concatenation of
the first column of the result is an initial segment of the code points of
`s`, and the concatenation of the second column equals `t`: the alignment
decomposes `t` exactly and consumes a well-defined span of `s`. -/
theorem getCollatingMatch_decomposes (U : Uni) (s t : List Char)
    (r : List (List Char × List Char)) (h : getCollatingMatch U s t = some r) :
    (∃ rest, (r.map Prod.fst).flatten ++ rest = s) ∧
      (r.map Prod.snd).flatten = t :=
  ⟨(gcmGo_props U _ s t r h).2.1, (gcmGo_props U _ s t r h).2.2⟩

/-- Witness for C10 on the collation.js example. -/
theorem getCollatingMatch_decomposes_witness :
    ∃ r, getCollatingMatch asciiUni "dæl·lete".data "daell".data = some r ∧
      ((∃ rest, (r.map Prod.fst).flatten ++ rest = "dæl·lete".data) ∧
        (r.map Prod.snd).flatten = "daell".data) :=
  ⟨_, rfl, getCollatingMatch_decomposes asciiUni "dæl·lete".data "daell".data _ rfl⟩

/-! # Part 4: LTWA pattern records and engine construction (AbbrevIso.js) -/

/- `String.prototype.trim` (same character class as `\s`). -/
def jsTrim (s : List Char) : List Char :=
  ((s.dropWhile isJsWs).reverse.dropWhile isJsWs).reverse

/- `String.prototype.split(sep)` for a single-character separator. -/
def splitOnChar (sep : Char) : List Char → List (List Char)
  | [] => [[]]
  | c :: cs =>
    if c = sep then [] :: splitOnChar sep cs
    else
      match splitOnChar sep cs with
      | [] => [[c]]
      | l :: ls => (c :: l) :: ls

/- Index of the last `')'` in the initial line-terminator-free stretch of a
string (the JS `.` in `/\(.*\)/` does not match line terminators). -/
def lastCloseIn : List Char → Option Nat
  | [] => none
  | c :: cs =>
    if isDotExcluded c then none
    else
      match lastCloseIn cs with
      | some k => some (k + 1)
      | none => if c = ')' then some 0 else none

/- `.replace(/\(.*\)/, '')`: remove the leftmost-longest parenthesized
stretch (first `'('` that has a later `')'`, up to the last such `')'`);
non-global, so only the first match is removed. -/
def removeParenComment : List Char → List Char
  | [] => []
  | c :: cs =>
    if c = '(' then
      match lastCloseIn cs with
      | some k => cs.drop (k + 1)
      | none => c :: removeParenComment cs
    else c :: removeParenComment cs

/- The two dash strips: `replace` of one leading dash, and of one trailing
dash (each non-global, a single occurrence). -/
def dropLeadDash : List Char → List Char
  | [] => []
  | c :: r => if c = '-' then r else c :: r

def dropTrailDash (p : List Char) : List Char :=
  (dropLeadDash p.reverse).reverse

/- One parsed LTWA line (`class LTWAPattern`). -/
structure LTWAPattern where
  pattern : List Char
  replacement : List Char
  languages : List (List Char)
  startDash : Bool
  endDash : Bool
  line : List Char
deriving DecidableEq, Repr

/- The `LTWAPattern` constructor; `Except.error line` models the two
`throw new Error(... line ...)` branches (the error carries the raw line). -/
def parseLTWAPattern (U : Uni) (line : List Char) : Except (List Char) LTWAPattern :=
  let a := splitOnChar '\t' line
  if a.length ≠ 3 then .error line
  else
    let p0 := jsTrim (U.nfc ((a.get? 0).getD []))
    let p := jsTrim (removeParenComment p0)
    if p.length < 3 then .error line
    else
      let rep0 := jsTrim (U.nfc ((a.get? 1).getD []))
      let rep :=
        if rep0 = "n.a.".data ∨ rep0 = "n. a.".data ∨ rep0 = "n.a".data then "–".data
        else rep0
      let langs := ((splitOnChar ',' ((a.get? 2).getD [])).map jsTrim)
      .ok ⟨p, rep, langs, p.head? = some '-', p.getLast? = some '-', line⟩

/- The engine state (`class AbbrevIso`; trailing underscores dropped). -/
structure Engine where
  badPatterns : List LTWAPattern
  nonprefixPatterns : PTree LTWAPattern
  dictPatterns : PTree LTWAPattern
  size : Nat
  shortWords : List (List Char)

def isAsciiLetter (c : Char) : Bool :=
  decide (('A' ≤ c ∧ c ≤ 'Z') ∨ ('a' ≤ c ∧ c ≤ 'z'))

/- `AbbrevIso.addPattern`. -/
def addPattern (U : Uni) (e : Engine) (pat : LTWAPattern) : Engine :=
  let p1 := normalize U (dropTrailDash (dropLeadDash pat.pattern))
  let isBad := !(match p1.head? with
                 | some c => isAsciiLetter c
                 | none => false)
  let bad' := if isBad then e.badPatterns ++ [pat] else e.badPatterns
  let key := promiscuouslyNormalize U p1
  if pat.startDash then
    ⟨bad', e.nonprefixPatterns.add key pat, e.dictPatterns, e.size + 1, e.shortWords⟩
  else
    ⟨bad', e.nonprefixPatterns, e.dictPatterns.add key pat, e.size + 1, e.shortWords⟩

/- The `AbbrevIso` constructor on raw LTWA and short-word strings: split
into lines, skip the header line and blank lines, parse and add each
record; the first malformed record aborts construction with its raw line.
Short words are trimmed and empty entries dropped. -/
def buildEngine (U : Uni) (ltwa shortWords : List Char) : Except (List Char) Engine :=
  let lines := splitLines ltwa
  let afterLtwa :=
    (lines.drop 1).foldl
      (fun (acc : Except (List Char) Engine) line =>
        acc.bind (fun e =>
          if (jsTrim line).length = 0 then .ok e
          else (parseLTWAPattern U line).map (addPattern U e)))
      (Except.ok (⟨[], PTree.empty, PTree.empty, 0, []⟩ : Engine))
  afterLtwa.map (fun e =>
    let sw := ((splitLines shortWords).map jsTrim).filter (fun s => s.length > 0)
    ⟨e.badPatterns, e.nonprefixPatterns, e.dictPatterns, e.size, sw⟩)

/-! # Part 5: getPotentialPatterns (AbbrevIso.js) -/

/- `LTWAPattern.prototype.toString`, the key of the default `Array.sort`. -/
def patToString (p : LTWAPattern) : List Char :=
  "[object LTWAPattern: ".data ++ p.line ++ "]".data

/- Lexicographic (code-unit) string order, as used by the default JS sort
comparator; on the BMP strings involved it coincides with UTF-16 order. -/
def charListLE : List Char → List Char → Bool
  | [], _ => true
  | _ :: _, [] => false
  | c :: cs, d :: ds => if c = d then charListLE cs ds else decide (c < d)

/- A stable sort.  `Array.prototype.sort` is required to be stable, and a
stable sort w.r.t. a total preorder has a unique result, so any stable
algorithm gives the JS output; insertion sort (inserting after existing
equivalent elements) is used so that concrete runs reduce in the kernel. -/
def insertSorted (le : α → α → Bool) (x : α) : List α → List α
  | [] => [x]
  | y :: ys => if le y x then y :: insertSorted le x ys else x :: y :: ys

def stableSort (le : α → α → Bool) (l : List α) : List α :=
  l.foldl (fun acc x => insertSorted le x acc) []

def patLE (p q : LTWAPattern) : Bool := charListLE (patToString p) (patToString q)

/- The duplicate-removal in `getPotentialPatterns`:
`result.filter((x, i, res) => !i || x !== res[i-1])` — each element is
compared with its predecessor in the sorted array.  JS compares object
identities; structural equality coincides unless the engine holds two
structurally identical pattern objects. -/
def dedupAdj [BEq α] : List α → List α
  | [] => []
  | x :: xs =>
    x :: (xs.zip (x :: xs)).filterMap (fun yp => if yp.1 == yp.2 then none else some yp.1)

/- The position scan of `getPotentialPatterns`: at a non-letter position
set `isNewWord`; at a letter position query `dictPatterns` when at a word
start (or when `pretendDash`) and always query `nonprefixPatterns`. -/
def gatherPatterns (e : Engine) (pretendD : Bool) : Bool → List Char → List LTWAPattern
  | _, [] => []
  | isNewWord, c :: rest =>
    if !isAsciiLetter c then gatherPatterns e pretendD true rest
    else
      (if isNewWord || pretendD then e.dictPatterns.get (c :: rest) else [])
        ++ e.nonprefixPatterns.get (c :: rest)
        ++ gatherPatterns e pretendD false rest

/- `AbbrevIso.getPotentialPatterns`, with its observable side effect made
explicit: in the JS code `result` aliases `this.badPatterns_` until the
first `concat` call, and `concat` executes exactly when some position of
the promiscuously normalized input holds an ASCII letter.  When no letter
occurs, `result.sort()` sorts `badPatterns_` itself in place; the returned
engine records the state after the query. -/
def getPotentialPatternsM (U : Uni) (e : Engine) (s : List Char) (pretendD : Bool) :
    List LTWAPattern × Engine :=
  let s' := promiscuouslyNormalize U s
  let gathered := gatherPatterns e pretendD true s'
  if s'.any isAsciiLetter then
    (dedupAdj (stableSort patLE (e.badPatterns ++ gathered)), e)
  else
    (dedupAdj (stableSort patLE e.badPatterns),
      ⟨stableSort patLE e.badPatterns, e.nonprefixPatterns, e.dictPatterns,
        e.size, e.shortWords⟩)

def getPotentialPatterns (U : Uni) (e : Engine) (s : List Char) (pretendD : Bool) :
    List LTWAPattern :=
  (getPotentialPatternsM U e s pretendD).1

/-! # Part 6: getPatternMatches (AbbrevIso.js)

The replacement-alignment walk indexes the collating-match arrays with a
cursor `ii` that the inner `while` advances without a bounds check; reading
past the end (`r[1][ii]` undefined, then `normalize` on it, or
`r[0][ii].length`) throws a `TypeError` in JS.  The embedding returns
`none` exactly at those reads. -/

/- One reported match: the tuple `[i, iend, abbr, pattern, appendix]`. -/
structure MatchT where
  i : Nat
  iend : Nat
  abbr : List Char
  pattern : LTWAPattern
  appendix : List Char
deriving DecidableEq, Repr

/- The inner `while` of the walk: skip alignment entries until `r[1][ii]`
is collation-equivalent to the current replacement character `cj` (or to
`cj` followed by the next replacement character `cj1`). -/
def walkSeek (U : Uni) (cj : Char) (cj1 : Option Char)
    (r : List (List Char × List Char)) :
    Nat → Nat → Nat → Option (Nat × Nat)
  | 0, _, _ => none
  | fuel + 1, ii, iend =>
    match r.get? ii with
    | none => none
    | some pr =>
      if !cEquiv U pr.2 [cj] &&
          (match cj1 with
           | none => true
           | some d => !cEquiv U pr.2 [cj, d]) then
        match r.get? (ii + 1) with
        | none => none
        | some pr' => walkSeek U cj cj1 r fuel (ii + 1) (iend + pr'.1.length)
      else some (ii, iend)

/- The `for (j ...)` loop over the replacement array: literal dots are
emitted directly; otherwise seek the next equivalent alignment entry, copy
its original-text slice into `abbr`, and advance (skipping one extra
replacement character when `r[1][ii]` matched two of them). -/
def walkRep (U : Uni) (r : List (List Char × List Char)) :
    List Char → Nat → Nat → List Char → Option (Nat × Nat × List Char)
  | [], ii, iend, abbr => some (ii, iend, abbr)
  | cj :: rest, ii, iend, abbr =>
    if cj = '.' then walkRep U r rest ii iend (abbr ++ ['.'])
    else
      match walkSeek U cj rest.head? r (r.length + 1) ii iend with
      | none => none
      | some (ii', iend') =>
        match r.get? ii' with
        | none => none
        | some pr =>
          let abbr' := abbr ++ pr.1
          let iend'' :=
            match r.get? (ii' + 1) with
            | some pr' => iend' + pr'.1.length
            | none => iend'
          if !cEquiv U pr.2 [cj] then
            -- `r[1][ii]` matched two replacement characters: `j` advances twice
            match rest with
            | [] => some (ii' + 1, iend'', abbr')
            | _ :: rest' => walkRep U r rest' (ii' + 1) iend'' abbr'
          else walkRep U r rest (ii' + 1) iend'' abbr'

def sumTailLens (r : List (List Char × List Char)) (fromIdx : Nat) : Nat :=
  ((r.drop fromIdx).map (fun pr => pr.1.length)).sum

/- The full walk for one collating match at offset `i`: initialization
(`iend = i + r[0][0].length`), the replacement loop, and the final loop
consuming the remaining alignment entries into `iend`. -/
def walkFull (U : Uni) (rep : List Char) (r : List (List Char × List Char))
    (i : Nat) : Option (List Char × Nat) :=
  match r.get? 0 with
  | none => none
  | some pr0 =>
    match walkRep U r rep 0 (i + pr0.1.length) [] with
    | none => none
    | some (ii, iend, abbr) => some (abbr, iend + sumTailLens r (ii + 1))

def isAppendixChar (c : Char) : Bool :=
  c = 'i' || c = 'a' || c = 'e' || c = 's' || c = 'n' || c = apoChar || c = rsqChar

/- The flection-suffix regex at a match end (no end-dash):
greedy `[iaesn'’]` up to three times, then end-of-string or a boundary;
`none` models a failed regex match. -/
def appendixAt (k : Nat) (suffix : List Char) : Option (List Char) :=
  let app := suffix.take k
  if app.length == k && app.all isAppendixChar &&
      (match suffix.drop k with
       | [] => true
       | c :: _ => isBoundary c) then some app
  else none

def appendixMatch (suffix : List Char) : Option (List Char) :=
  ((appendixAt 3 suffix).orElse fun _ =>
    (appendixAt 2 suffix).orElse fun _ =>
      (appendixAt 1 suffix).orElse fun _ => appendixAt 0 suffix)

/- The position loop of `getPatternMatches` (`while (i < value.length)`),
reporting matches in increasing position order.  `startAnchor` is
`!pattern.startDash && !pretendDash`; `extendEnd` is
`pattern.endDash || pretendDash`.  Each iteration advances `i` by one, so
the initial fuel `|value| + 1` is never exhausted. -/
def gpmLoop (U : Uni) (value : List Char) (pat : LTWAPattern) (p rep : List Char)
    (startAnchor extendEnd : Bool) :
    Nat → Nat → Bool → Option (List MatchT)
  | 0, _, _ => none
  | fuel + 1, i, prevBnd =>
    match value.get? i with
    | none => some []
    | some ci =>
      if startAnchor && !prevBnd then
        gpmLoop U value pat p rep startAnchor extendEnd fuel (i + 1) (isBoundary ci)
      else
        match getCollatingMatch U (value.drop i) p with
        | none =>
          gpmLoop U value pat p rep startAnchor extendEnd fuel (i + 1) (isBoundary ci)
        | some r =>
          match walkFull U rep r i with
          | none => none
          | some (abbr0, iend0) =>
            if extendEnd then
              let iend1 :=
                iend0 + ((value.drop iend0).takeWhile (fun c => !isBoundary c)).length
              let abbr1 :=
                if rep.isEmpty then (value.drop i).take (iend1 - i) else abbr0
              (gpmLoop U value pat p rep startAnchor extendEnd fuel (i + 1)
                  (isBoundary ci)).map
                (fun ms => ⟨i, iend1, abbr1, pat, []⟩ :: ms)
            else
              match appendixMatch (value.drop iend0) with
              | none =>
                gpmLoop U value pat p rep startAnchor extendEnd fuel (i + 1)
                  (isBoundary ci)
              | some app =>
                let iend1 := iend0 + app.length
                let abbr1 :=
                  if rep.isEmpty then (value.drop i).take (iend1 - i) else abbr0
                (gpmLoop U value pat p rep startAnchor extendEnd fuel (i + 1)
                    (isBoundary ci)).map
                  (fun ms => ⟨i, iend1, abbr1, pat, app⟩ :: ms)

/- The processed replacement array of `getPatternMatches`: the sentinel
`'–'` becomes empty, and a leading dash is stripped when the pattern starts
with a dash (or `pretendDash`). -/
def gpmRep (pat : LTWAPattern) (pretendD : Bool) : List Char :=
  let rep0 := if pat.replacement = "–".data then [] else pat.replacement
  if pat.startDash || pretendD then dropLeadDash rep0 else rep0

/- The processed pattern body of `getPatternMatches`: leading dash stripped
when `startDash || pretendDash`, trailing dash when `endDash || pretendDash`. -/
def gpmPBody (pat : LTWAPattern) (pretendD : Bool) : List Char :=
  let p1 := if pat.startDash || pretendD then dropLeadDash pat.pattern else pat.pattern
  if pat.endDash || pretendD then dropTrailDash p1 else p1

/- `AbbrevIso.getPatternMatches`.  `languages = none` models the omitted
argument (the JS default `['*']` is then substituted). -/
def getPatternMatches (U : Uni) (value : List Char) (pat : LTWAPattern)
    (languages : Option (List (List Char))) (pretendD : Bool) :
    Option (List MatchT) :=
  let langs := languages.getD ["*".data]
  if !langs.contains "*".data && !pat.languages.any (fun x => langs.contains x) then
    some []
  else
    gpmLoop U value pat (gpmPBody pat pretendD) (gpmRep pat pretendD)
      (!pat.startDash && !pretendD) (pat.endDash || pretendD)
      (value.length + 1) 0 true

/-! # Claims C6, C7, C8 -/

theorem dropLeadDash_length (l : List Char) : l.length ≤ (dropLeadDash l).length + 1 := by
  cases l with
  | nil => simp [dropLeadDash]
  | cons c r =>
    simp only [dropLeadDash]
    split <;> simp

theorem dropTrailDash_length (l : List Char) : l.length ≤ (dropTrailDash l).length + 1 := by
  have := dropLeadDash_length l.reverse
  simpa [dropTrailDash] using this

theorem getCollatingMatch_ne_nil {U : Uni} {s t : List Char}
    {r : List (List Char × List Char)} (ht : t ≠ [])
    (h : getCollatingMatch U s t = some r) : r ≠ [] := by
  unfold getCollatingMatch at h
  simp only [gcmGo] at h
  rcases hstep : gcmStep U s t with _ | ⟨a, b, ss', tt'⟩ | _
  · exact absurd (gcmStep_done hstep) ht
  · rw [hstep] at h
    obtain ⟨r', _, rfl⟩ := Option.map_eq_some'.1 h
    simp
  · rw [hstep] at h
    cases h

/- The position loop never fails when the replacement array is empty: the
alignment walk (the only error source) is then vacuous. -/
theorem gpmLoop_total (U : Uni) (value : List Char) (pat : LTWAPattern)
    (p : List Char) (sa ee : Bool) (hp : p ≠ []) :
    ∀ fuel i prevBnd, value.length + 1 ≤ fuel + i → i ≤ value.length →
      ∃ ms, gpmLoop U value pat p [] sa ee fuel i prevBnd = some ms := by
  intro fuel
  induction fuel with
  | zero =>
    intro i prevBnd hle hi
    omega
  | succ fuel ih =>
    intro i prevBnd hle hi
    simp only [gpmLoop]
    rcases hgi : value.get? i with _ | ci
    · exact ⟨[], rfl⟩
    · dsimp only
      have hilt : i < value.length := (List.get?_eq_some.1 hgi).1
      have hrec := ih (i + 1) (isBoundary ci) (by omega) (by omega)
      split
      · exact hrec
      · rcases hgcm : getCollatingMatch U (value.drop i) p with _ | r
        · exact hrec
        · have hr : r ≠ [] := getCollatingMatch_ne_nil hp hgcm
          rcases r with _ | ⟨pr0, rtail⟩
          · exact absurd rfl hr
          · dsimp only [walkFull, walkRep, List.get?]
            obtain ⟨ms, hms⟩ := hrec
            split
            · exact ⟨_, by rw [hms]; rfl⟩
            · rcases happ : appendixMatch
                (value.drop (i + pr0.1.length + sumTailLens (pr0 :: rtail) 1)) with _ | app
              · exact ⟨ms, hms⟩
              · exact ⟨_, by rw [hms]; rfl⟩

/-- C6 counterexample: an engine built from the validly parsed LTWA line
`"abc\txyz\teng"` makes the replacement-alignment walk of
`getPatternMatches` read past the end of the collating match on the title
`"abc d"`: no replacement character is collation-equivalent to any aligned
pattern character, the cursor `ii` runs off the arrays, and the JS code
throws a `TypeError` (here: `none`). -/
theorem getPatternMatches_raises_cex :
    ∃ pat, parseLTWAPattern asciiUni "abc\txyz\teng".data = .ok pat ∧
      getPatternMatches asciiUni "abc d".data pat none false = none :=
  ⟨_, rfl, by decide⟩

/-- C6 (amended): `getPotentialPatterns` and the match enumeration never
raise except through the replacement-alignment walk; in particular, for a
pattern whose replacement is the "not abbreviated" sentinel (so the walk is
vacuous) and whose pattern body has the parser-guaranteed length ≥ 3,
`getPatternMatches` always terminates with a result.  The error branch is
reachable for other validly built patterns (see the counterexample). -/
theorem getPatternMatches_total_na (U : Uni) (value : List Char)
    (pat : LTWAPattern) (languages : Option (List (List Char))) (pd : Bool)
    (hrep : pat.replacement = "–".data) (hlen : 3 ≤ pat.pattern.length) :
    ∃ ms, getPatternMatches U value pat languages pd = some ms := by
  have hrepna : gpmRep pat pd = [] := by
    unfold gpmRep
    rw [hrep]
    simp only [if_pos rfl]
    split <;> rfl
  have hplen : 1 ≤ (gpmPBody pat pd).length := by
    unfold gpmPBody
    have h1 := dropLeadDash_length pat.pattern
    have h2 := dropTrailDash_length (dropLeadDash pat.pattern)
    have h3 := dropTrailDash_length pat.pattern
    dsimp only
    split <;> split <;> omega
  unfold getPatternMatches
  dsimp only
  split
  · exact ⟨[], rfl⟩
  · rw [hrepna]
    apply gpmLoop_total
    · intro hnil
      rw [hnil] at hplen
      simp at hplen
    · omega
    · omega

/-- Witness for the amended C6: a sentinel-replacement pattern is matched
without error. -/
theorem getPatternMatches_total_na_witness :
    ∃ ms, getPatternMatches asciiUni "xabc abcs!".data
      ⟨"abc".data, "–".data, ["eng".data], false, false, []⟩ none false = some ms :=
  getPatternMatches_total_na asciiUni "xabc abcs!".data
    ⟨"abc".data, "–".data, ["eng".data], false, false, []⟩ none false rfl (by decide)

theorem insertSorted_perm (le : α → α → Bool) (x : α) (l : List α) :
    List.Perm (insertSorted le x l) (x :: l) := by
  induction l with
  | nil => exact List.Perm.refl _
  | cons y ys ih =>
    simp only [insertSorted]
    split
    · exact (ih.cons y).trans (List.Perm.swap x y ys)
    · exact List.Perm.refl _

theorem foldl_insertSorted_perm (le : α → α → Bool) (l : List α) :
    ∀ acc, List.Perm (l.foldl (fun a x => insertSorted le x a) acc) (acc ++ l) := by
  induction l with
  | nil => intro acc; simp
  | cons x xs ih =>
    intro acc
    simp only [List.foldl_cons]
    refine ((ih _).trans ?_)
    refine ((insertSorted_perm le x acc).append_right xs).trans ?_
    exact List.perm_middle.symm

theorem stableSort_perm (le : α → α → Bool) (l : List α) :
    List.Perm (stableSort le l) l := by
  simpa using foldl_insertSorted_perm le l []

/-- C7 counterexample: queries are not read-only.  On an engine whose two
"bad" patterns (apostrophe-initial) were inserted out of lexicographic
order, `getPotentialPatterns("")` sorts `badPatterns_` in place (the
`result` array still aliases it because no `concat` ran), so the engine's
`badPatterns_` order changes. -/
theorem getPotentialPatterns_mutates_cex :
    ∃ e, buildEngine asciiUni
        ("x\n".data ++ apoChar :: "bcd\tb.\teng\n".data ++ apoChar :: "abc\ta.\teng".data)
        [] = .ok e ∧
      (getPotentialPatternsM asciiUni e [] false).2.badPatterns ≠ e.badPatterns :=
  ⟨_, rfl, by decide⟩

/-- C7 (amended): a query mutates none of the engine state except that
`getPotentialPatterns` may reorder `badPatterns_` in place (sorting it by
string representation, exactly when the promiscuously normalized input
contains no ASCII letter); the two prefix trees, `shortWords_` and `size_`
are always preserved, and `badPatterns_` is always preserved up to order. -/
theorem getPotentialPatterns_frame (U : Uni) (e : Engine) (s : List Char)
    (pd : Bool) :
    (getPotentialPatternsM U e s pd).2.nonprefixPatterns = e.nonprefixPatterns ∧
    (getPotentialPatternsM U e s pd).2.dictPatterns = e.dictPatterns ∧
    (getPotentialPatternsM U e s pd).2.size = e.size ∧
    (getPotentialPatternsM U e s pd).2.shortWords = e.shortWords ∧
    List.Perm (getPotentialPatternsM U e s pd).2.badPatterns e.badPatterns := by
  unfold getPotentialPatternsM
  dsimp only
  split
  · exact ⟨rfl, rfl, rfl, rfl, List.Perm.refl _⟩
  · exact ⟨rfl, rfl, rfl, rfl, stableSort_perm _ _⟩

/-- C8 counterexample: an LTWA record with four tab-separated fields (not
fewer than three, and with a well-formed pattern of length ≥ 3) is
rejected by construction — the constructor tests `a.length != 3`, not
`a.length < 3` as the claim states. -/
theorem parseLTWAPattern_error_iff_cex :
    parseLTWAPattern asciiUni "abc\tx.\teng\textra".data
        = .error "abc\tx.\teng\textra".data ∧
      ¬ ((splitOnChar '\t' "abc\tx.\teng\textra".data).length < 3 ∨
        (jsTrim (removeParenComment (jsTrim (asciiUni.nfc
          (((splitOnChar '\t' "abc\tx.\teng\textra".data).get? 0).getD []))))).length
            < 3) := by
  constructor
  · rfl
  · decide

/-- C8 (amended): construction rejects a non-header, non-blank LTWA record,
raising an error that carries the raw line, if and only if the record does
not have exactly three tab-separated fields or its NFC-normalized,
comment-stripped, trimmed pattern is shorter than 3 characters; every other
record is accepted, and adding a pattern increments the engine size by
exactly one. -/
theorem parseLTWAPattern_error_iff (U : Uni) (line : List Char) :
    ((∃ pat, parseLTWAPattern U line = .ok pat) ↔
      ((splitOnChar '\t' line).length = 3 ∧
        ¬ (jsTrim (removeParenComment (jsTrim (U.nfc
          (((splitOnChar '\t' line).get? 0).getD []))))).length < 3)) ∧
    (∀ err, parseLTWAPattern U line = .error err → err = line) ∧
    (∀ e pat, (addPattern U e pat).size = e.size + 1) := by
  refine ⟨?_, ?_, ?_⟩
  · unfold parseLTWAPattern
    dsimp only
    constructor
    · rintro ⟨pat, hp⟩
      split at hp
      · cases hp
      · split at hp
        · cases hp
        · refine ⟨by omega, by assumption⟩
    · rintro ⟨h3, hlen⟩
      rw [if_neg (by omega), if_neg hlen]
      exact ⟨_, rfl⟩
  · intro err
    unfold parseLTWAPattern
    dsimp only
    split
    · intro h; cases h; rfl
    · split
      · intro h; cases h; rfl
      · intro h; cases h
  · intro e pat
    unfold addPattern
    dsimp only
    split <;> rfl

/-- Witness for the amended C8 at a concrete accepted record. -/
theorem parseLTWAPattern_error_iff_witness :
    ∃ pat, parseLTWAPattern asciiUni "abc\tx.\teng".data = .ok pat :=
  (parseLTWAPattern_error_iff asciiUni "abc\tx.\teng".data).1.2 (by decide)

/-! # Part 7: the abbreviation planner (AbbrevIso.makeAbbreviation)

Each JS `String.replace(regex, repl)` with a global flag is embedded as a
left-to-right scan (`scanR`): at every position the step function attempts
the regex match (with its replacement already applied); on success the scan
continues after the matched text, on failure it advances one character —
exactly the `lastIndex` behaviour of a global regex replace.  Each step
implements its regex's alternation order and greedy backtracking
explicitly. -/

def scanR (step : Bool → List Char → Option (List Char × List Char)) :
    Nat → Bool → List Char → List Char
  | 0, _, cs => cs
  | _ + 1, _, [] => []
  | fuel + 1, atStart, c :: cs =>
    match step atStart (c :: cs) with
    | some (out, rest) => out ++ scanR step fuel false rest
    | none => c :: scanR step fuel false cs

/- Every step instance consumes at least one character per match, so fuel
`|s| + 1` is never exhausted. -/
def runScan (step : Bool → List Char → Option (List Char × List Char))
    (s : List Char) : List Char :=
  scanR step (s.length + 1) true s

def isUpper (c : Char) : Bool := decide ('A' ≤ c ∧ c ≤ 'Z')

def isDigit (c : Char) : Bool := decide ('0' ≤ c ∧ c ≤ '9')

/- Strip a literal word from the front of a string. -/
def stripPre : List Char → List Char → Option (List Char)
  | [], l => some l
  | _ :: _, [] => none
  | a :: w', b :: l' => if a = b then stripPre w' l' else none

/- `replace(dotdotdot, '')` — three literal periods removed. -/
def stepEllipsis (_ : Bool) (l : List Char) : Option (List Char × List Char) :=
  match l with
  | a :: b :: c :: rest =>
    if a = '.' ∧ b = '.' ∧ c = '.' then some ([], rest) else none
  | _ => none

/- The class in the acronym regex: `[A-Z,.&\-\\/]`. -/
def isAcroPrev (c : Char) : Bool :=
  isUpper c || c = ',' || c = '.' || c = '&' || c = '-' || c = '\\' || c = '/'

/- The core of the acronym regexes: one optional whitespace (greedy), an
uppercase letter, and the comma to restore; returns the consumed prefix
without the comma. -/
def matchWsUpComma : List Char → Option (List Char × List Char)
  | a :: b :: c :: rest =>
    if isJsWs a ∧ isUpper b ∧ c = ',' then some ([a, b], rest)
    else if isUpper a ∧ b = ',' then some ([a], c :: rest)
    else none
  | [a, b] => if isUpper a ∧ b = ',' then some ([a], []) else none
  | _ => none

/- The acronym restoration: the `^` alternative is tried first (at the
string start), then the character-class alternative; the replacement is
the match with its final comma turned into a period. -/
def stepAcro (atStart : Bool) (l : List Char) : Option (List Char × List Char) :=
  (if atStart then
    match matchWsUpComma l with
    | some (core, rest) => some (core ++ ['.'], rest)
    | none => none
  else none).orElse (fun _ =>
    match l with
    | c0 :: rest0 =>
      if isAcroPrev c0 then
        match matchWsUpComma rest0 with
        | some (core, rest) => some (c0 :: (core ++ ['.']), rest)
        | none => none
      else none
    | [] => none)

/- The whitespace-then-capital restoration. -/
def stepWsUp (_ : Bool) : List Char → Option (List Char × List Char)
  | a :: b :: c :: rest =>
    if isJsWs a ∧ isUpper b ∧ c = ',' then some ([a, b, '.'], rest) else none
  | _ => none

/- The intra-word period restoration (letter, comma, letter). -/
def stepIntraWord (_ : Bool) : List Char → Option (List Char × List Char)
  | a :: b :: c :: rest =>
    if isAsciiLetter a ∧ b = ',' ∧ isAsciiLetter c then some ([a, '.', c], rest)
    else none
  | _ => none

/- The class before an ordinal: `[\s\-:,&#()\\/]`. -/
def isOrdPrev (c : Char) : Bool :=
  isJsWs c || c = '-' || c = ':' || c = ',' || c = '&' || c = '#' || c = '(' ||
    c = ')' || c = '\\' || c = '/'

/- The ordinal restoration: class char, one to three digits (greedy), then
the comma to restore. -/
def stepOrdinal (_ : Bool) (l : List Char) : Option (List Char × List Char) :=
  match l with
  | c0 :: d1 :: r =>
    if isOrdPrev c0 ∧ isDigit d1 then
      match r with
      | d2 :: d3 :: c :: rest =>
        if isDigit d2 ∧ isDigit d3 ∧ c = ',' then some ([c0, d1, d2, d3, '.'], rest)
        else if isDigit d2 ∧ d3 = ',' then some ([c0, d1, d2, '.'], c :: rest)
        else if d2 = ',' then some ([c0, d1, '.'], d3 :: c :: rest)
        else none
      | [d2, d3] =>
        if isDigit d2 ∧ d3 = ',' then some ([c0, d1, d2, '.'], [])
        else if d2 = ',' then some ([c0, d1, '.'], [d3])
        else none
      | [d2] => if d2 = ',' then some ([c0, d1, '.'], []) else none
      | [] => none
    else none
  | _ => none

def honorifics : List (List Char) :=
  ["St".data, "Mr".data, "Ms".data, "Mrs".data, "Mx".data, "Dr".data,
    "Prof".data, "vs".data]

/- Try the alternation words in order; each must be followed by the comma
being restored. -/
def tryWordComma : List (List Char) → List Char → Option (List Char × List Char)
  | [], _ => none
  | w :: ws, l =>
    match stripPre w l with
    | some (c :: rest) =>
      if c = ',' then some (w ++ ['.'], rest) else tryWordComma ws l
    | _ => tryWordComma ws l

/- The honorific restoration (`(^|\s)` then the word alternation). -/
def stepHonorific (atStart : Bool) (l : List Char) : Option (List Char × List Char) :=
  (if atStart then tryWordComma honorifics l else none).orElse (fun _ =>
    match l with
    | c0 :: rest0 =>
      if isJsWs c0 then
        match tryWordComma honorifics rest0 with
        | some (out, rest) => some (c0 :: out, rest)
        | none => none
      else none
    | [] => none)

/- The leading `J,` restoration (anchored at the string start). -/
def stepJComma (atStart : Bool) (l : List Char) : Option (List Char × List Char) :=
  if atStart then
    match l with
    | a :: b :: rest => if a = 'J' ∧ b = ',' then some (['J', '.'], rest) else none
    | _ => none
  else none

def isUpperOrDigit (c : Char) : Bool := isUpper c || isDigit c

/- The `&`/`+`-for-"and" removal between two non-`[A-Z0-9]` characters. -/
def stepAmp (_ : Bool) : List Char → Option (List Char × List Char)
  | a :: b :: c :: rest =>
    if ¬isUpperOrDigit a ∧ (b = '&' ∨ b = '+') ∧ ¬isUpperOrDigit c then
      some ([a, c], rest)
    else none
  | _ => none

/- Step 1 of the planner: the punctuation normalization chain, in source
order (ellipses, commas, periods to commas, acronym restoration twice,
whitespace-capital, intra-word, ordinals, honorifics, leading `J,`,
`&`/`+` removal). -/
def punctuationNormalize (s : List Char) : List Char :=
  let s1 := runScan stepEllipsis s
  let s2 := s1.filter (fun c => c != Char.ofNat 0x2026)
  let s3 := s2.filter (fun c => c != ',')
  let s4 := s3.map (fun c => if c = '.' then ',' else c)
  let s5 := runScan stepAcro s4
  let s6 := runScan stepAcro s5
  let s7 := runScan stepWsUp s6
  let s8 := runScan stepIntraWord s7
  let s9 := runScan stepOrdinal s8
  let s10 := runScan stepHonorific s9
  let s11 := runScan stepJComma s10
  runScan stepAmp s11

def sepWords : List (List Char) :=
  ["Series".data, "Serie".data, "Ser".data, "Part".data, "Section".data,
    "Sect".data, "Sec".data, "Série".data]

def isRomanDig (c : Char) : Bool :=
  isDigit c || c = 'I' || c = 'V' || c = 'X' || c = 'i' || c = 'v' || c = 'x'

/- After a separator word: `[,.]?\s*([A-Z]|[0-9IVXivx]+)(boundary|$)`,
returning `$2$3` and the rest.  The optional punctuation and the greedy
`\s*` need no backtracking (no whitespace or punctuation can start `$2`);
the single-capital alternative is tried before the roman/digit run, whose
greedy maximal form needs no backtracking (its class is disjoint from the
boundary class). -/
def sepTailStrip (rest0 : List Char) : List Char :=
  match rest0 with
  | c :: r => if c = ',' ∨ c = '.' then r else rest0
  | [] => rest0

def sepTailCore (rest2 : List Char) : Option (List Char × List Char) :=
  match rest2 with
  | [] => none
  | c :: r =>
    if isUpper c && (match r with
                     | [] => true
                     | d :: _ => isBoundary d) then
      match r with
      | [] => some ([c], [])
      | d :: r' => some ([c, d], r')
    else
      let run := rest2.takeWhile isRomanDig
      let after := rest2.drop run.length
      if decide (run.length > 0) && (match after with
                                     | [] => true
                                     | d :: _ => isBoundary d) then
        match after with
        | [] => some (run, [])
        | d :: r' => some (run ++ [d], r')
      else none

def trySepTail (rest0 : List Char) : Option (List Char × List Char) :=
  sepTailCore ((sepTailStrip rest0).dropWhile isJsWs)

def trySep : List (List Char) → List Char → Option (List Char × List Char)
  | [], _ => none
  | w :: ws, l =>
    match stripPre w l with
    | some rest0 =>
      match trySepTail rest0 with
      | some res => some res
      | none => trySep ws l
    | none => trySep ws l

/- Step 2 of the planner: dependent-title separators before an enumeration
token. -/
def stepSep (_ : Bool) (l : List Char) : Option (List Char × List Char) :=
  trySep sepWords l

/- One short-word removal (`removeShortWords` body for one word): the word
preceded by the string start (when allowed) or a planner-boundary
character, followed by one whitespace character; the replacement keeps only
the leading boundary. -/
def stepWord (allowStart : Bool) (w : List Char) (atStart : Bool) (l : List Char) :
    Option (List Char × List Char) :=
  (if allowStart ∧ atStart then
    match stripPre w l with
    | some (c :: rest) => if isJsWs c then some ([], rest) else none
    | _ => none
  else none).orElse (fun _ =>
    match l with
    | c0 :: rest0 =>
      if isPlannerBoundary c0 then
        match stripPre w rest0 with
        | some (c :: rest) => if isJsWs c then some ([c0], rest) else none
        | _ => none
      else none
    | [] => none)

/- `word.charAt(0).toUpperCase() + word.substr(1)`. -/
def capitalizeFirst (U : Uni) (w : List Char) : List Char :=
  match w with
  | [] => []
  | c :: r => U.toUpper [c] ++ r

/- `AbbrevIso.removeShortWords`: each word of the list (also with its first
letter capitalized) is removed by a global replace. -/
def removeShortWords (U : Uni) (s : List Char) (shortWords : List (List Char))
    (allowStart : Bool) : List Char :=
  (shortWords ++ shortWords.map (capitalizeFirst U)).foldl
    (fun acc w => runScan (stepWord allowStart w) acc) s

def frenchArticleWords : List (List Char) :=
  [['l'], ['L'], ['d'], ['D'], "dell".data, "nell".data]

def tryFrench : List (List Char) → List Char → Option (List Char)
  | [], _ => none
  | w :: ws, l =>
    match stripPre w l with
    | some (c :: rest) =>
      if c = apoChar ∨ c = rsqChar then some rest else tryFrench ws l
    | _ => tryFrench ws l

/- The contracted-article removal (`(^|boundary)(l|L|d|D|dell|nell)('|’)`,
with the full collation boundary set); the replacement keeps only `$1`. -/
def stepFrench (atStart : Bool) (l : List Char) : Option (List Char × List Char) :=
  (if atStart then (tryFrench frenchArticleWords l).map (fun rest => (([] : List Char), rest))
  else none).orElse (fun _ =>
    match l with
    | c0 :: rest0 =>
      if isBoundary c0 then (tryFrench frenchArticleWords rest0).map (fun rest => ([c0], rest))
      else none
    | [] => none)

/- The hard-coded article list of `makeAbbreviation`. -/
def articles : List (List Char) :=
  ["a".data, "an".data, "the".data, "der".data, "die".data, "das".data,
    "den".data, "dem".data, "des".data, "le".data, "la".data, "les".data,
    "el".data, "il".data, "lo".data, "los".data, "de".data, "het".data,
    "els".data, "ses".data, "es".data, "gli".data, "een".data,
    apoChar :: "t".data, apoChar :: "n".data]

/- The single-word check `new RegExp('.' + boundaries + '.', 'u')`: a full
boundary character with a `.`-matchable character (not a line terminator)
on each side. -/
def hasTwoWordsGo : List Char → Bool
  | a :: b :: c :: rest =>
    (!isDotExcluded a && isBoundary b && !isDotExcluded c)
      || hasTwoWordsGo (b :: c :: rest)
  | _ => false

def hasTwoWords (s : List Char) : Bool := hasTwoWordsGo s

/- The overlap-resolution priority (`getPriority`). -/
def getPriority (m : MatchT) : Int :=
  (if m.pattern.startDash then 100 else 0) + (if m.pattern.endDash then 3 else 0)
    + (m.appendix.length : Int)
    - ((m.iend : Int) - (m.i : Int) - (m.appendix.length : Int))
    - (m.pattern.pattern.length : Int)

/- Strict span intersection, as in the resolution loop. -/
def strictIntersect (a b : MatchT) : Bool :=
  decide (a.iend > b.i) && decide (b.iend > a.i)

/- The `matches.sort` by priority (ascending, stable). -/
def sortedByPriority (ms : List MatchT) : List MatchT :=
  stableSort (fun a b => decide (getPriority a ≤ getPriority b)) ms

/- The splice loop: keep the current match and drop every later match whose
span strictly intersects it.  The fuel only forces termination (each round
removes the head); `|ms| + 1` is never exhausted. -/
def resolveGo : Nat → List MatchT → List MatchT
  | 0, ms => ms
  | fuel + 1, ms =>
    match ms with
    | [] => []
    | m :: rest => m :: resolveGo fuel (rest.filter (fun k => !strictIntersect m k))

/- The full overlap-resolution stage of `makeAbbreviation`: sort by
priority, then the splice loop. -/
def overlapResolved (ms : List MatchT) : List MatchT :=
  resolveGo ((sortedByPriority ms).length + 1) (sortedByPriority ms)

/- The final `matches.sort` descending by start offset (stable). -/
def sortedByStartDesc (ms : List MatchT) : List MatchT :=
  stableSort (fun a b => decide (b.i ≤ a.i)) ms

/- One substitution of the application loop: the span `[i, iend)` is
replaced by `abbr` only when that strictly shortens the string. -/
def applyMatch (res : List Char) (m : MatchT) : List Char :=
  if m.abbr.length < m.iend - m.i then
    res.take m.i ++ m.abbr ++ res.drop m.iend
  else res

def applyMatches (res : List Char) (ms : List MatchT) : List Char :=
  ms.foldl applyMatch res

/- The match collection of `makeAbbreviation` (the `for` loop over the
candidate patterns, concatenating `getPatternMatches` results; a raised
`TypeError` aborts the whole computation). -/
def collectMatches (U : Uni) (value : List Char) (patterns : List LTWAPattern)
    (languages : Option (List (List Char))) : Option (List MatchT) :=
  patterns.foldl
    (fun acc pat =>
      acc.bind (fun ms =>
        (getPatternMatches U value pat languages false).map (fun ms' => ms ++ ms')))
    (some [])

/- Steps 1–3 of the planner on the NFC-normalized, trimmed title:
punctuation normalization, dependent-title separators, article removal
(plain and contracted). -/
def plannerPrelude (U : Uni) (value : List Char) : List Char :=
  runScan stepFrench
    (removeShortWords U
      (runScan stepSep (punctuationNormalize (jsTrim (U.nfc value))))
      articles true)

/- `AbbrevIso.makeAbbreviation`.  `languages = none` and `patterns = none`
model omitted arguments. -/
def makeAbbreviation (U : Uni) (e : Engine) (value : List Char)
    (languages : Option (List (List Char))) (patterns : Option (List LTWAPattern)) :
    Option (List Char) :=
  let pats := patterns.getD (getPotentialPatterns U e value false)
  let r4 := plannerPrelude U value
  let preResult := removeShortWords U r4 e.shortWords true
  if !hasTwoWords preResult then some (jsTrim (collapseWs r4))
  else
    (collectMatches U r4 pats languages).map (fun ms =>
      jsTrim (collapseWs (removeShortWords U
        (applyMatches r4 (sortedByStartDesc (overlapResolved ms)))
        e.shortWords false)))

/-! # Claim C2: overlap resolution -/

theorem resolveGo_mem : ∀ fuel ms (x : MatchT), x ∈ resolveGo fuel ms → x ∈ ms := by
  intro fuel
  induction fuel with
  | zero => intro ms x h; exact h
  | succ fuel ih =>
    intro ms x h
    match ms with
    | [] => cases h
    | m :: rest =>
      simp only [resolveGo] at h
      rcases List.mem_cons.1 h with rfl | h'
      · exact List.mem_cons_self _ _
      · exact List.mem_cons_of_mem _ (List.mem_of_mem_filter (ih _ x h'))

theorem resolveGo_pairwise : ∀ fuel ms, ms.length < fuel →
    List.Pairwise (fun a b => strictIntersect a b = false) (resolveGo fuel ms) := by
  intro fuel
  induction fuel with
  | zero => intro ms h; omega
  | succ fuel ih =>
    intro ms h
    match ms with
    | [] => exact List.Pairwise.nil
    | m :: rest =>
      simp only [resolveGo]
      constructor
      · intro b hb
        have hbf := resolveGo_mem _ _ _ hb
        have hfb := List.of_mem_filter hbf
        simpa using hfb
      · apply ih
        have hlen := List.length_filter_le (fun k => !strictIntersect m k) rest
        simp only [List.length_cons] at h
        omega

def c2PatA : LTWAPattern := ⟨"aaa bb".data, "–".data, ["eng".data], false, false, "A".data⟩

def c2PatB : LTWAPattern := ⟨"bb cc".data, "–".data, ["eng".data], false, false, "B".data⟩

def c2PatC : LTWAPattern := ⟨"cc d".data, "–".data, ["eng".data], false, false, "C".data⟩

/-- C2 counterexample: on the title `"aaa bb cc de"` (which the planner's
punctuation/article stages leave unchanged) with candidate patterns
`"aaa bb"`, `"bb cc"`, `"cc d"`, the candidate matches of `"bb cc"` and
`"cc d"` strictly intersect and the former has strictly smaller priority,
yet the larger-priority match of `"cc d"` SURVIVES overlap resolution (and
would be applied): the match of `"bb cc"` was already discarded because of
its overlap with the still smaller-priority match of `"aaa bb"`, so it
never got to evict `"cc d"`. -/
theorem overlap_priority_cex :
    plannerPrelude asciiUni "aaa bb cc de".data = "aaa bb cc de".data ∧
    ∃ cand, collectMatches asciiUni "aaa bb cc de".data [c2PatA, c2PatB, c2PatC] none
        = some cand ∧
      ∃ mB ∈ cand, ∃ mC ∈ cand, strictIntersect mB mC = true ∧
        getPriority mB < getPriority mC ∧ mC ∈ overlapResolved cand := by
  refine ⟨by decide, _, rfl, ?_⟩
  decide

/-- C2 (amended): in `makeAbbreviation`'s overlap resolution, of two
strictly intersecting candidate matches at least one is discarded — the
surviving matches are pairwise non-overlapping (so the applied matches
are too), and every survivor is one of the candidates.  The larger-priority
match of an intersecting pair is discarded whenever the smaller-priority
one is still present at its turn, but it can survive when the
smaller-priority one was itself discarded earlier (see the
counterexample). -/
theorem overlapResolved_nonoverlapping (ms : List MatchT) :
    List.Pairwise (fun a b => strictIntersect a b = false) (overlapResolved ms) ∧
      ∀ m ∈ overlapResolved ms, m ∈ ms := by
  constructor
  · exact resolveGo_pairwise _ _ (by omega)
  · intro m hm
    exact ((stableSort_perm _ _).mem_iff).1 (resolveGo_mem _ _ _ hm)

/-! # Claim C9: trivial titles -/

theorem jsTrim_ws_only {t : List Char} (h : ∀ c ∈ t, isJsWs c = true) :
    jsTrim t = [] := by
  unfold jsTrim
  have h1 : t.dropWhile isJsWs = [] := by
    rw [List.dropWhile_eq_nil_iff]
    exact h
  rw [h1]
  rfl

theorem removeShortWords_nil (U : Uni) (sw : List (List Char)) (b : Bool) :
    removeShortWords U [] sw b = [] := by
  unfold removeShortWords
  generalize sw ++ sw.map (capitalizeFirst U) = ws
  induction ws with
  | nil => rfl
  | cons w ws ih =>
    simp only [List.foldl_cons]
    exact ih

/-- C9 counterexample: on `"The Cat"` the single-word early return fires
(after short-word removal only `"Cat"` is left for the two-word test), but
`makeAbbreviation` returns `"Cat"` — the punctuation-normalized,
hard-coded-article-stripped, whitespace-collapsed form — and not the
NFC-normalized, trimmed input title `"The Cat"`, refuting the claim.  The
stripping is done by the hard-coded article list, not by the engine's short
words: the short-word-stripped copy is only tested, never returned, so with
engine short word `"of"` the title `"of cat"` also takes the early return
yet comes back unchanged, `"of"` included. -/
theorem makeAbbreviation_trivial_cex :
    (∃ e1, buildEngine asciiUni "x".data "the".data = .ok e1 ∧
      makeAbbreviation asciiUni e1 "The Cat".data none none = some "Cat".data ∧
      ¬ "Cat".data = jsTrim (asciiUni.nfc "The Cat".data)) ∧
    ∃ e2, buildEngine asciiUni "x".data "of".data = .ok e2 ∧
      e2.shortWords = ["of".data] ∧
      hasTwoWords (removeShortWords asciiUni (plannerPrelude asciiUni "of cat".data)
        e2.shortWords true) = false ∧
      makeAbbreviation asciiUni e2 "of cat".data none none = some "of cat".data :=
  ⟨⟨_, rfl, by decide, by decide⟩, _, rfl, by decide, by decide, by decide⟩

/-- C9 (amended): an empty or whitespace-only title yields the
NFC-normalized, whitespace-trimmed title unchanged (the empty string); a
short title in general yields the trimmed, whitespace-collapsed result of
the normalization pipeline through hard-coded article removal — engine
short words are removed only in the copy used for the single-word test,
never from the returned string — which can differ from the trimmed input
(see the counterexample).  The hypothesis on `U` states that NFC
normalization fixes whitespace-only strings, which the real NFC does. -/
theorem makeAbbreviation_ws_only (U : Uni) (e : Engine) (t : List Char)
    (languages : Option (List (List Char))) (patterns : Option (List LTWAPattern))
    (hws : ∀ c ∈ t, isJsWs c = true) (hnfc : U.nfc t = t) :
    makeAbbreviation U e t languages patterns = some [] := by
  unfold makeAbbreviation plannerPrelude
  rw [hnfc, jsTrim_ws_only hws]
  dsimp only
  rw [show punctuationNormalize [] = [] from rfl,
    show runScan stepSep [] = [] from rfl, removeShortWords_nil,
    show runScan stepFrench [] = [] from rfl, removeShortWords_nil]
  rfl

/-- Witness for the amended C9 on a whitespace-only title. -/
theorem makeAbbreviation_ws_only_witness :
    makeAbbreviation asciiUni ⟨[], PTree.empty, PTree.empty, 0, []⟩ "  ".data
      none none = some [] :=
  makeAbbreviation_ws_only asciiUni ⟨[], PTree.empty, PTree.empty, 0, []⟩ "  ".data
    none none (by decide) rfl

/-! # Claim C5: idempotence up to whitespace collapse -/

/- The lowercase ASCII letters; on titles made only of these, every planner
stage is shown to be the identity. -/
def lowerChars : List Char := "abcdefghijklmnopqrstuvwxyz".data

theorem lower_char_facts : ∀ c ∈ lowerChars,
    isJsWs c = false ∧ isBoundary c = false ∧ isPlannerBoundary c = false ∧
    isUpper c = false ∧ isAcroPrev c = false ∧ isOrdPrev c = false ∧
    isUpperOrDigit c = false ∧ isDotExcluded c = false ∧
    c ≠ '.' ∧ c ≠ ',' ∧ c ≠ '&' ∧ c ≠ '+' ∧ c ≠ apoChar ∧ c ≠ rsqChar ∧
    c ≠ 'J' ∧ c ≠ 'S' ∧ c ≠ 'P' ∧ (c != Char.ofNat 0x2026) = true := by
  decide

theorem lc_ws {c : Char} (h : c ∈ lowerChars) : isJsWs c = false :=
  (lower_char_facts c h).1

theorem lc_bd {c : Char} (h : c ∈ lowerChars) : isBoundary c = false :=
  (lower_char_facts c h).2.1

theorem lc_pbd {c : Char} (h : c ∈ lowerChars) : isPlannerBoundary c = false :=
  (lower_char_facts c h).2.2.1

theorem lc_up {c : Char} (h : c ∈ lowerChars) : isUpper c = false :=
  (lower_char_facts c h).2.2.2.1

theorem lc_acro {c : Char} (h : c ∈ lowerChars) : isAcroPrev c = false :=
  (lower_char_facts c h).2.2.2.2.1

theorem lc_ord {c : Char} (h : c ∈ lowerChars) : isOrdPrev c = false :=
  (lower_char_facts c h).2.2.2.2.2.1

theorem lc_upd {c : Char} (h : c ∈ lowerChars) : isUpperOrDigit c = false :=
  (lower_char_facts c h).2.2.2.2.2.2.1

theorem lc_dex {c : Char} (h : c ∈ lowerChars) : isDotExcluded c = false :=
  (lower_char_facts c h).2.2.2.2.2.2.2.1

theorem lc_dot {c : Char} (h : c ∈ lowerChars) : c ≠ '.' :=
  (lower_char_facts c h).2.2.2.2.2.2.2.2.1

theorem lc_comma {c : Char} (h : c ∈ lowerChars) : c ≠ ',' :=
  (lower_char_facts c h).2.2.2.2.2.2.2.2.2.1

theorem lc_amp {c : Char} (h : c ∈ lowerChars) : c ≠ '&' :=
  (lower_char_facts c h).2.2.2.2.2.2.2.2.2.2.1

theorem lc_plus {c : Char} (h : c ∈ lowerChars) : c ≠ '+' :=
  (lower_char_facts c h).2.2.2.2.2.2.2.2.2.2.2.1

theorem lc_apo {c : Char} (h : c ∈ lowerChars) : c ≠ apoChar :=
  (lower_char_facts c h).2.2.2.2.2.2.2.2.2.2.2.2.1

theorem lc_rsq {c : Char} (h : c ∈ lowerChars) : c ≠ rsqChar :=
  (lower_char_facts c h).2.2.2.2.2.2.2.2.2.2.2.2.2.1

theorem lc_J {c : Char} (h : c ∈ lowerChars) : c ≠ 'J' :=
  (lower_char_facts c h).2.2.2.2.2.2.2.2.2.2.2.2.2.2.1

theorem lc_S {c : Char} (h : c ∈ lowerChars) : c ≠ 'S' :=
  (lower_char_facts c h).2.2.2.2.2.2.2.2.2.2.2.2.2.2.2.1

theorem lc_P {c : Char} (h : c ∈ lowerChars) : c ≠ 'P' :=
  (lower_char_facts c h).2.2.2.2.2.2.2.2.2.2.2.2.2.2.2.2.1

theorem lc_ellb {c : Char} (h : c ∈ lowerChars) : (c != Char.ofNat 0x2026) = true :=
  (lower_char_facts c h).2.2.2.2.2.2.2.2.2.2.2.2.2.2.2.2.2

theorem lc_commab {c : Char} (h : c ∈ lowerChars) : (c != ',') = true := by
  have h10 := lc_comma h
  simp [h10]

theorem stripPre_mem : ∀ (w l r : List Char), stripPre w l = some r → ∀ x ∈ r, x ∈ l := by
  intro w
  induction w with
  | nil =>
    intro l r h x hx
    simp only [stripPre] at h
    injection h with h2
    subst h2
    exact hx
  | cons a w' ih =>
    intro l r h x hx
    match l with
    | [] =>
      simp only [stripPre] at h
      cases h
    | b :: l' =>
      simp only [stripPre] at h
      by_cases hab : a = b
      · rw [if_pos hab] at h
        exact List.mem_cons_of_mem b (ih l' r h x hx)
      · rw [if_neg hab] at h
        cases h

/- A global replace whose step never fires on an all-lowercase string is the
identity. -/
theorem scanR_id_of_none (step : Bool → List Char → Option (List Char × List Char))
    (hstep : ∀ st l, (∀ c ∈ l, c ∈ lowerChars) → step st l = none) :
    ∀ fuel st (l : List Char), (∀ c ∈ l, c ∈ lowerChars) →
      scanR step fuel st l = l := by
  intro fuel
  induction fuel with
  | zero => intro st l h; rfl
  | succ fuel ih =>
    intro st l h
    match l with
    | [] => rfl
    | c :: cs =>
      have h2 : ∀ d ∈ cs, d ∈ lowerChars := fun d hd => h d (List.mem_cons_of_mem c hd)
      calc scanR step (fuel + 1) st (c :: cs)
          = c :: scanR step fuel false cs := by
            simp only [scanR, hstep st (c :: cs) h]
        _ = c :: cs := by rw [ih false cs h2]

theorem runScan_id_of_none (step : Bool → List Char → Option (List Char × List Char))
    (hstep : ∀ st l, (∀ c ∈ l, c ∈ lowerChars) → step st l = none)
    (l : List Char) (hlow : ∀ c ∈ l, c ∈ lowerChars) : runScan step l = l :=
  scanR_id_of_none step hstep (l.length + 1) true l hlow

theorem stepEllipsis_none (st : Bool) (l : List Char)
    (hlow : ∀ c ∈ l, c ∈ lowerChars) : stepEllipsis st l = none := by
  match l with
  | [] => rfl
  | [a] => rfl
  | [a, b] => rfl
  | a :: b :: c :: rest =>
    have ha := lc_dot (hlow a (List.mem_cons_self a _))
    simp [stepEllipsis, ha]

theorem matchWsUpComma_none (l : List Char) (hlow : ∀ c ∈ l, c ∈ lowerChars) :
    matchWsUpComma l = none := by
  match l with
  | [] => rfl
  | [a] => rfl
  | [a, b] =>
    have ha := lc_up (hlow a (List.mem_cons_self a _))
    simp [matchWsUpComma, ha]
  | a :: b :: c :: rest =>
    have ha1 := lc_ws (hlow a (List.mem_cons_self a _))
    have ha2 := lc_up (hlow a (List.mem_cons_self a _))
    simp [matchWsUpComma, ha1, ha2]

theorem stepAcro_none (st : Bool) (l : List Char)
    (hlow : ∀ c ∈ l, c ∈ lowerChars) : stepAcro st l = none := by
  match l with
  | [] => cases st <;> rfl
  | c0 :: rest0 =>
    have hm := matchWsUpComma_none (c0 :: rest0) hlow
    have hm2 := matchWsUpComma_none rest0
      (fun d hd => hlow d (List.mem_cons_of_mem c0 hd))
    have ha := lc_acro (hlow c0 (List.mem_cons_self c0 rest0))
    cases st <;> simp [stepAcro, hm, hm2, ha, Option.orElse]

theorem stepWsUp_none (st : Bool) (l : List Char)
    (hlow : ∀ c ∈ l, c ∈ lowerChars) : stepWsUp st l = none := by
  match l with
  | [] => rfl
  | [a] => rfl
  | [a, b] => rfl
  | a :: b :: c :: rest =>
    have ha := lc_ws (hlow a (List.mem_cons_self a _))
    simp [stepWsUp, ha]

theorem stepIntraWord_none (st : Bool) (l : List Char)
    (hlow : ∀ c ∈ l, c ∈ lowerChars) : stepIntraWord st l = none := by
  match l with
  | [] => rfl
  | [a] => rfl
  | [a, b] => rfl
  | a :: b :: c :: rest =>
    have hb := lc_comma (hlow b (List.mem_cons_of_mem a (List.mem_cons_self b _)))
    simp [stepIntraWord, hb]

theorem stepOrdinal_none (st : Bool) (l : List Char)
    (hlow : ∀ c ∈ l, c ∈ lowerChars) : stepOrdinal st l = none := by
  match l with
  | [] => rfl
  | [a] => rfl
  | c0 :: d1 :: r =>
    have h0 := lc_ord (hlow c0 (List.mem_cons_self c0 _))
    simp [stepOrdinal, h0]

theorem tryWordComma_none : ∀ (ws : List (List Char)) (l : List Char),
    (∀ c ∈ l, c ∈ lowerChars) → tryWordComma ws l = none := by
  intro ws
  induction ws with
  | nil => intro l h; rfl
  | cons w ws ih =>
    intro l h
    cases hsp : stripPre w l with
    | none =>
      simp only [tryWordComma, hsp]
      exact ih l h
    | some r =>
      cases r with
      | nil =>
        simp only [tryWordComma, hsp]
        exact ih l h
      | cons c rest =>
        have hc : c ∈ l := stripPre_mem w l (c :: rest) hsp c (List.mem_cons_self c rest)
        have hcc := lc_comma (h c hc)
        simp only [tryWordComma, hsp]
        rw [if_neg hcc]
        exact ih l h

theorem stepHonorific_none (st : Bool) (l : List Char)
    (hlow : ∀ c ∈ l, c ∈ lowerChars) : stepHonorific st l = none := by
  match l with
  | [] =>
    have h0 := tryWordComma_none honorifics [] (by intro c hc; cases hc)
    cases st <;> simp [stepHonorific, h0, Option.orElse]
  | c0 :: rest0 =>
    have h1 := tryWordComma_none honorifics (c0 :: rest0) hlow
    have h2 := tryWordComma_none honorifics rest0
      (fun d hd => hlow d (List.mem_cons_of_mem c0 hd))
    have hw := lc_ws (hlow c0 (List.mem_cons_self c0 rest0))
    cases st <;> simp [stepHonorific, h1, h2, hw, Option.orElse]

theorem stepJComma_none (st : Bool) (l : List Char)
    (hlow : ∀ c ∈ l, c ∈ lowerChars) : stepJComma st l = none := by
  cases st with
  | false => rfl
  | true =>
    match l with
    | [] => rfl
    | [a] => rfl
    | a :: b :: rest =>
      have ha := lc_J (hlow a (List.mem_cons_self a _))
      simp [stepJComma, ha]

theorem stepAmp_none (st : Bool) (l : List Char)
    (hlow : ∀ c ∈ l, c ∈ lowerChars) : stepAmp st l = none := by
  match l with
  | [] => rfl
  | [a] => rfl
  | [a, b] => rfl
  | a :: b :: c :: rest =>
    have hb1 := lc_amp (hlow b (List.mem_cons_of_mem a (List.mem_cons_self b _)))
    have hb2 := lc_plus (hlow b (List.mem_cons_of_mem a (List.mem_cons_self b _)))
    simp [stepAmp, hb1, hb2]

theorem stepSep_none (st : Bool) (l : List Char)
    (hlow : ∀ c ∈ l, c ∈ lowerChars) : stepSep st l = none := by
  match l with
  | [] => rfl
  | c :: cs =>
    have hS := lc_S (hlow c (List.mem_cons_self c cs))
    have hP := lc_P (hlow c (List.mem_cons_self c cs))
    have hSn : ¬('S' = c) := fun h => hS h.symm
    have hPn : ¬('P' = c) := fun h => hP h.symm
    simp [stepSep, sepWords, trySep, stripPre, hSn, hPn]

theorem stepWord_none (a : Bool) (w : List Char) (st : Bool) (l : List Char)
    (hlow : ∀ c ∈ l, c ∈ lowerChars) : stepWord a w st l = none := by
  match l with
  | [] =>
    unfold stepWord
    cases hsp : stripPre w [] with
    | none => simp [Option.orElse]
    | some r =>
      match r with
      | [] => simp [Option.orElse]
      | c :: rest =>
        have hmem := stripPre_mem w [] (c :: rest) hsp c (List.mem_cons_self c rest)
        cases hmem
  | c0 :: rest0 =>
    have hpb := lc_pbd (hlow c0 (List.mem_cons_self c0 rest0))
    unfold stepWord
    cases hsp : stripPre w (c0 :: rest0) with
    | none => simp [Option.orElse, hpb]
    | some r =>
      match r with
      | [] => simp [Option.orElse, hpb]
      | c :: rest =>
        have hc := lc_ws (hlow c (stripPre_mem w (c0 :: rest0) (c :: rest) hsp c
          (List.mem_cons_self c rest)))
        simp [Option.orElse, hpb, hc]

theorem tryFrench_none : ∀ (ws : List (List Char)) (l : List Char),
    (∀ c ∈ l, c ∈ lowerChars) → tryFrench ws l = none := by
  intro ws
  induction ws with
  | nil => intro l h; rfl
  | cons w ws ih =>
    intro l h
    cases hsp : stripPre w l with
    | none =>
      simp only [tryFrench, hsp]
      exact ih l h
    | some r =>
      match r with
      | [] =>
        simp only [tryFrench, hsp]
        exact ih l h
      | c :: rest =>
        have hc : c ∈ l := stripPre_mem w l (c :: rest) hsp c (List.mem_cons_self c rest)
        have h1 := lc_apo (h c hc)
        have h2 := lc_rsq (h c hc)
        have hn : ¬(c = apoChar ∨ c = rsqChar) := by
          rintro (h3 | h3)
          · exact h1 h3
          · exact h2 h3
        simp only [tryFrench, hsp]
        rw [if_neg hn]
        exact ih l h

theorem stepFrench_none (st : Bool) (l : List Char)
    (hlow : ∀ c ∈ l, c ∈ lowerChars) : stepFrench st l = none := by
  match l with
  | [] =>
    have h0 := tryFrench_none frenchArticleWords [] (by intro c hc; cases hc)
    cases st <;> simp [stepFrench, h0, Option.orElse]
  | c0 :: rest0 =>
    have h1 := tryFrench_none frenchArticleWords (c0 :: rest0) hlow
    have h2 := tryFrench_none frenchArticleWords rest0
      (fun d hd => hlow d (List.mem_cons_of_mem c0 hd))
    have hb := lc_bd (hlow c0 (List.mem_cons_self c0 rest0))
    cases st <;> simp [stepFrench, h1, h2, hb, Option.orElse]

theorem punctuationNormalize_id (l : List Char)
    (hlow : ∀ c ∈ l, c ∈ lowerChars) : punctuationNormalize l = l := by
  have e1 : runScan stepEllipsis l = l := runScan_id_of_none _ stepEllipsis_none l hlow
  have e2 : l.filter (fun c => c != Char.ofNat 0x2026) = l :=
    List.filter_eq_self.2 (fun c hc => lc_ellb (hlow c hc))
  have e3 : l.filter (fun c => c != ',') = l :=
    List.filter_eq_self.2 (fun c hc => lc_commab (hlow c hc))
  have e4 : l.map (fun c => if c = '.' then ',' else c) = l := by
    refine (List.map_congr_left ?_).trans (List.map_id' l)
    intro c hc
    exact if_neg (lc_dot (hlow c hc))
  have e5 : runScan stepAcro l = l := runScan_id_of_none _ stepAcro_none l hlow
  have e6 : runScan stepWsUp l = l := runScan_id_of_none _ stepWsUp_none l hlow
  have e7 : runScan stepIntraWord l = l := runScan_id_of_none _ stepIntraWord_none l hlow
  have e8 : runScan stepOrdinal l = l := runScan_id_of_none _ stepOrdinal_none l hlow
  have e9 : runScan stepHonorific l = l := runScan_id_of_none _ stepHonorific_none l hlow
  have e10 : runScan stepJComma l = l := runScan_id_of_none _ stepJComma_none l hlow
  have e11 : runScan stepAmp l = l := runScan_id_of_none _ stepAmp_none l hlow
  simp only [punctuationNormalize]
  rw [e1, e2, e3, e4, e5, e5, e6, e7, e8, e9, e10, e11]

theorem removeShortWords_id (U : Uni) (l : List Char) (sw : List (List Char))
    (b : Bool) (hlow : ∀ c ∈ l, c ∈ lowerChars) : removeShortWords U l sw b = l := by
  unfold removeShortWords
  generalize sw ++ sw.map (capitalizeFirst U) = ws
  induction ws with
  | nil => rfl
  | cons w ws ih =>
    simp only [List.foldl_cons]
    rw [runScan_id_of_none (stepWord b w) (stepWord_none b w) l hlow]
    exact ih

theorem hasTwoWordsGo_false (l : List Char) (h : ∀ c ∈ l, isBoundary c = false) :
    hasTwoWordsGo l = false := by
  induction l with
  | nil => rfl
  | cons a tail ih =>
    cases tail with
    | nil => rfl
    | cons b tail2 =>
      cases tail2 with
      | nil => rfl
      | cons c rest =>
        have hb := h b (List.mem_cons_of_mem a (List.mem_cons_self b _))
        have ht := ih (fun d hd => h d (List.mem_cons_of_mem a hd))
        simp only [hasTwoWordsGo] at ht ⊢
        rw [ht, hb]
        simp

theorem collapseWsGo_id (l : List Char) (h : ∀ c ∈ l, isJsWs c = false) :
    ∀ b, collapseWsGo b l = l := by
  induction l with
  | nil => intro b; rfl
  | cons c cs ih =>
    intro b
    have hc := h c (List.mem_cons_self c cs)
    simp only [collapseWsGo, hc]
    rw [ih (fun d hd => h d (List.mem_cons_of_mem c hd)) false]
    simp

theorem dropWhile_isJsWs_id (l : List Char) (h : ∀ c ∈ l, isJsWs c = false) :
    l.dropWhile isJsWs = l := by
  cases l with
  | nil => rfl
  | cons c cs =>
    rw [List.dropWhile_cons]
    simp [h c (List.mem_cons_self c cs)]

theorem jsTrim_id (l : List Char) (h : ∀ c ∈ l, isJsWs c = false) : jsTrim l = l := by
  unfold jsTrim
  rw [dropWhile_isJsWs_id l h,
    dropWhile_isJsWs_id l.reverse (fun c hc => h c (List.mem_reverse.1 hc)),
    List.reverse_reverse]

/- On a nonempty title made only of lowercase ASCII letters, every stage of
the planner is the identity and the single-word early return fires, so
`makeAbbreviation` returns the title itself. -/
theorem makeAbbreviation_lower_id (U : Uni) (e : Engine) (t : List Char)
    (languages : Option (List (List Char))) (patterns : Option (List LTWAPattern))
    (hlow : ∀ c ∈ t, c ∈ lowerChars) (hnfc : U.nfc t = t) :
    makeAbbreviation U e t languages patterns = some t := by
  have hjt : jsTrim t = t := jsTrim_id t (fun c hc => lc_ws (hlow c hc))
  have hpn : punctuationNormalize t = t := punctuationNormalize_id t hlow
  have hsep : runScan stepSep t = t := runScan_id_of_none stepSep stepSep_none t hlow
  have hart : removeShortWords U t articles true = t :=
    removeShortWords_id U t articles true hlow
  have hfr : runScan stepFrench t = t := runScan_id_of_none stepFrench stepFrench_none t hlow
  have hpre : plannerPrelude U t = t := by
    unfold plannerPrelude
    rw [hnfc, hjt, hpn, hsep, hart, hfr]
  have hsw : removeShortWords U t e.shortWords true = t :=
    removeShortWords_id U t e.shortWords true hlow
  have h2w : hasTwoWords t = false :=
    hasTwoWordsGo_false t (fun c hc => lc_bd (hlow c hc))
  have hcl : collapseWs t = t := collapseWsGo_id t (fun c hc => lc_ws (hlow c hc)) false
  simp only [makeAbbreviation]
  rw [hpre, hsw, h2w]
  simp only [Bool.not_false, if_true]
  rw [hcl, hjt]

/-- C5 counterexample: idempotence up to whitespace collapse fails.  With the
LTWA rules `Geographical -> Geogr.` and `Journal -> J.`, the title
`"Geographical Journal"` abbreviates to `"Geogr. J."`; abbreviating that
output again yields `"Geogr, J."` (punctuation normalization turns the
internal period into a comma and only the pre-whitespace-capital period of
`" J."` is restored), which differs from the whitespace-collapsed, trimmed
first output. -/
theorem makeAbbreviation_idem_cex :
    ∃ e, buildEngine asciiUni "hdr\nGeographical\tGeogr.\teng\nJournal\tJ.\teng".data
        [] = .ok e ∧
      makeAbbreviation asciiUni e "Geographical Journal".data none none =
        some "Geogr. J.".data ∧
      makeAbbreviation asciiUni e "Geogr. J.".data none none =
        some "Geogr, J.".data ∧
      jsTrim (collapseWs "Geogr. J.".data) = "Geogr. J.".data ∧
      ¬ "Geogr, J.".data = "Geogr. J.".data :=
  ⟨_, rfl, by decide, by decide, by decide, by decide⟩

/-- C5 (amended): idempotence up to whitespace collapse does not hold for
every title (see the counterexample: restored periods are re-normalized to
commas on the second pass).  It does hold on every nonempty title consisting
of lowercase ASCII letters: there `makeAbbreviation` is the identity, so a
second application returns the first output exactly, and that output is
already whitespace-collapsed and trimmed.  The hypothesis on `U` says NFC
normalization fixes such titles, which the real NFC does. -/
theorem makeAbbreviation_idem_lowercase (U : Uni) (e : Engine) (t : List Char)
    (hlow : ∀ c ∈ t, c ∈ lowerChars) (hnfc : U.nfc t = t) :
    ∃ o, makeAbbreviation U e t none none = some o ∧
      makeAbbreviation U e o none none = some o ∧
      jsTrim (collapseWs o) = o :=
  ⟨t, makeAbbreviation_lower_id U e t none none hlow hnfc,
    makeAbbreviation_lower_id U e t none none hlow hnfc,
    by
      unfold collapseWs
      rw [collapseWsGo_id t (fun c hc => lc_ws (hlow c hc)) false]
      exact jsTrim_id t (fun c hc => lc_ws (hlow c hc))⟩

/-- Witness for the amended C5 on the title `"nature"` with an empty engine. -/
theorem makeAbbreviation_idem_lowercase_witness :
    (∀ c ∈ "nature".data, c ∈ lowerChars) ∧
      asciiUni.nfc "nature".data = "nature".data ∧
      ∃ o, makeAbbreviation asciiUni ⟨[], PTree.empty, PTree.empty, 0, []⟩
          "nature".data none none = some o ∧
        makeAbbreviation asciiUni ⟨[], PTree.empty, PTree.empty, 0, []⟩
          o none none = some o ∧
        jsTrim (collapseWs o) = o :=
  ⟨by decide, rfl,
    makeAbbreviation_idem_lowercase asciiUni ⟨[], PTree.empty, PTree.empty, 0, []⟩
      "nature".data (by decide) rfl⟩

/-! # Claim C3: every applied substitution strictly shortens, and the output
length is bounded by the punctuation-normalized input length -/

theorem orElse_some_elim {α} (a : Option α) (f : Unit → Option α) (x : α)
    (h : a.orElse f = some x) : a = some x ∨ (a = none ∧ f () = some x) := by
  cases a with
  | some y => left; exact h
  | none => right; exact ⟨rfl, h⟩

theorem stripPre_length : ∀ (w l r : List Char), stripPre w l = some r →
    l.length = w.length + r.length := by
  intro w
  induction w with
  | nil =>
    intro l r h
    simp only [stripPre] at h
    injection h with h
    subst h
    simp
  | cons a w' ih =>
    intro l r h
    match l with
    | [] =>
      simp only [stripPre] at h
      cases h
    | b :: l' =>
      simp only [stripPre] at h
      by_cases hab : a = b
      · rw [if_pos hab] at h
        have := ih l' r h
        simp only [List.length_cons]
        omega
      · rw [if_neg hab] at h
        cases h

theorem collapseWsGo_length_le : ∀ (l : List Char) (b : Bool),
    (collapseWsGo b l).length ≤ l.length := by
  intro l
  induction l with
  | nil => intro b; exact Nat.le_refl _
  | cons c cs ih =>
    intro b
    simp only [collapseWsGo]
    by_cases hc : isJsWs c = true
    · rw [if_pos hc]
      by_cases hb : b = true
      · rw [if_pos hb]
        have := ih true
        simp only [List.length_cons]
        omega
      · rw [if_neg hb]
        have := ih true
        simp only [List.length_cons]
        omega
    · rw [if_neg hc]
      have := ih false
      simp only [List.length_cons]
      omega

theorem jsTrim_length_le (s : List Char) : (jsTrim s).length ≤ s.length := by
  have h1 : (s.dropWhile isJsWs).length ≤ s.length :=
    List.Sublist.length_le (List.dropWhile_sublist isJsWs)
  have h2 : ((s.dropWhile isJsWs).reverse.dropWhile isJsWs).length ≤
      (s.dropWhile isJsWs).reverse.length :=
    List.Sublist.length_le (List.dropWhile_sublist isJsWs)
  unfold jsTrim
  rw [List.length_reverse]
  rw [List.length_reverse] at h2
  omega

/- A global replace shortens (weakly) whenever every firing of the step
consumes at least as much as it emits. -/
theorem scanR_length_le (step : Bool → List Char → Option (List Char × List Char))
    (hstep : ∀ st l out rest, step st l = some (out, rest) →
      out.length + rest.length ≤ l.length) :
    ∀ fuel st (l : List Char), (scanR step fuel st l).length ≤ l.length := by
  intro fuel
  induction fuel with
  | zero => intro st l; exact Nat.le_refl _
  | succ fuel ih =>
    intro st l
    match l with
    | [] => exact Nat.le_refl _
    | c :: cs =>
      cases hs : step st (c :: cs) with
      | none =>
        simp only [scanR, hs]
        have := ih false cs
        simp only [List.length_cons]
        omega
      | some pr =>
        obtain ⟨out, rest⟩ := pr
        simp only [scanR, hs]
        have h1 := hstep st (c :: cs) out rest hs
        have h2 := ih false rest
        simp only [List.length_append, List.length_cons] at h1 h2 ⊢
        omega

theorem runScan_length_le (step : Bool → List Char → Option (List Char × List Char))
    (hstep : ∀ st l out rest, step st l = some (out, rest) →
      out.length + rest.length ≤ l.length)
    (l : List Char) : (runScan step l).length ≤ l.length :=
  scanR_length_le step hstep (l.length + 1) true l

theorem sepTailStrip_le (rest0 : List Char) : (sepTailStrip rest0).length ≤ rest0.length := by
  match rest0 with
  | [] => exact Nat.le_refl _
  | c :: r =>
    simp only [sepTailStrip]
    split
    · simp
    · exact Nat.le_refl _

theorem sepTailCore_bound (rest2 out rest : List Char)
    (h : sepTailCore rest2 = some (out, rest)) : out.length + rest.length ≤ rest2.length := by
  match rest2 with
  | [] =>
    simp only [sepTailCore] at h
    cases h
  | c :: r =>
    simp only [sepTailCore] at h
    split at h
    · split at h
      · injection h with h
        cases h
        simp
      · injection h with h
        cases h
        simp only [List.length_cons, List.length_nil]
        omega
    · split at h
      · have hrun : ((c :: r).takeWhile isRomanDig).length ≤ (c :: r).length := by
          have hsub : List.Sublist ((c :: r).takeWhile isRomanDig) (c :: r) :=
            List.takeWhile_sublist isRomanDig
          exact hsub.length_le
        have hdrop := List.length_drop ((c :: r).takeWhile isRomanDig).length (c :: r)
        split at h
        · injection h with h
          cases h
          simpa using hrun
        · rename_i d r' heq
          injection h with h
          cases h
          rw [heq] at hdrop
          simp only [List.length_append, List.length_cons, List.length_nil] at hdrop ⊢
          omega
      · cases h

theorem trySepTail_bound (rest0 out rest : List Char)
    (h : trySepTail rest0 = some (out, rest)) : out.length + rest.length ≤ rest0.length := by
  unfold trySepTail at h
  have h1 := sepTailCore_bound _ out rest h
  have h2 : ((sepTailStrip rest0).dropWhile isJsWs).length ≤ (sepTailStrip rest0).length := by
    have hsub : List.Sublist ((sepTailStrip rest0).dropWhile isJsWs) (sepTailStrip rest0) :=
      List.dropWhile_sublist isJsWs
    exact hsub.length_le
  have h3 := sepTailStrip_le rest0
  omega

theorem trySep_bound : ∀ (ws : List (List Char)) (l out rest : List Char),
    trySep ws l = some (out, rest) → out.length + rest.length ≤ l.length := by
  intro ws
  induction ws with
  | nil => intro l out rest h; cases h
  | cons w ws ih =>
    intro l out rest h
    cases hsp : stripPre w l with
    | none =>
      simp only [trySep, hsp] at h
      exact ih l out rest h
    | some rest0 =>
      simp only [trySep, hsp] at h
      cases hst : trySepTail rest0 with
      | none =>
        rw [hst] at h
        exact ih l out rest h
      | some res =>
        obtain ⟨o2, r2⟩ := res
        rw [hst] at h
        injection h with h
        cases h
        have h1 := trySepTail_bound rest0 _ _ hst
        have h2 := stripPre_length w l rest0 hsp
        omega

theorem stepSep_bound (st : Bool) (l out rest : List Char)
    (h : stepSep st l = some (out, rest)) : out.length + rest.length ≤ l.length :=
  trySep_bound sepWords l out rest h

theorem stepWord_bound (a : Bool) (w : List Char) (st : Bool) (l out rest : List Char)
    (h : stepWord a w st l = some (out, rest)) : out.length + rest.length ≤ l.length := by
  unfold stepWord at h
  rcases orElse_some_elim _ _ _ h with h1 | ⟨-, h1⟩
  · split at h1
    · cases hsp : stripPre w l with
      | none => rw [hsp] at h1; cases h1
      | some r =>
        rw [hsp] at h1
        split at h1
        · rename_i c1 r1 heq
          injection heq with heq
          subst heq
          split at h1
          · injection h1 with h1
            cases h1
            have := stripPre_length w l _ hsp
            simp only [List.length_cons, List.length_nil] at this ⊢
            omega
          · cases h1
        · cases h1
    · cases h1
  · cases l with
    | nil => cases h1
    | cons c0 rest0 =>
      split at h1
      case h_2 => cases h1
      · rename_i c2 cs2 hout
        injection hout with he1 he2
        subst he1
        subst he2
        split at h1
        · cases hsp : stripPre w rest0 with
          | none => rw [hsp] at h1; cases h1
          | some r =>
            rw [hsp] at h1
            split at h1
            · rename_i c1 r1 heq
              injection heq with heq
              subst heq
              split at h1
              · injection h1 with h1
                cases h1
                have := stripPre_length w rest0 _ hsp
                simp only [List.length_cons, List.length_nil] at this ⊢
                omega
              · cases h1
            · cases h1
        · cases h1

theorem tryFrench_le : ∀ (ws : List (List Char)) (l rest : List Char),
    tryFrench ws l = some rest → rest.length ≤ l.length := by
  intro ws
  induction ws with
  | nil => intro l rest h; cases h
  | cons w ws ih =>
    intro l rest h
    cases hsp : stripPre w l with
    | none =>
      simp only [tryFrench, hsp] at h
      exact ih l rest h
    | some r =>
      match r with
      | [] =>
        simp only [tryFrench, hsp] at h
        exact ih l rest h
      | c :: r' =>
        simp only [tryFrench, hsp] at h
        split at h
        · injection h with h
          subst h
          have := stripPre_length w l _ hsp
          simp only [List.length_cons] at this
          omega
        · exact ih l rest h

theorem stepFrench_bound (st : Bool) (l out rest : List Char)
    (h : stepFrench st l = some (out, rest)) : out.length + rest.length ≤ l.length := by
  unfold stepFrench at h
  rcases orElse_some_elim _ _ _ h with h1 | ⟨-, h1⟩
  · split at h1
    · cases hf : tryFrench frenchArticleWords l with
      | none => rw [hf] at h1; cases h1
      | some r =>
        rw [hf] at h1
        simp only [Option.map_some'] at h1
        injection h1 with h1
        cases h1
        have h2 := tryFrench_le frenchArticleWords l _ hf
        simpa using h2
    · cases h1
  · cases l with
    | nil => cases h1
    | cons c0 rest0 =>
      split at h1
      case h_2 => cases h1
      · rename_i c2 cs2 hout
        injection hout with he1 he2
        subst he1
        subst he2
        split at h1
        · cases hf : tryFrench frenchArticleWords rest0 with
          | none => rw [hf] at h1; cases h1
          | some r =>
            rw [hf] at h1
            simp only [Option.map_some'] at h1
            injection h1 with h1
            cases h1
            have h2 := tryFrench_le frenchArticleWords rest0 _ hf
            simp only [List.length_cons, List.length_nil]
            omega
        · cases h1

theorem removeShortWords_length_le (U : Uni) (s : List Char) (sw : List (List Char))
    (b : Bool) : (removeShortWords U s sw b).length ≤ s.length := by
  unfold removeShortWords
  generalize sw ++ sw.map (capitalizeFirst U) = ws
  induction ws generalizing s with
  | nil => exact Nat.le_refl _
  | cons w ws ih =>
    simp only [List.foldl_cons]
    exact le_trans (ih (runScan (stepWord b w) s))
      (runScan_length_le (stepWord b w) (stepWord_bound b w) s)

theorem sumTailLens_succ (r : List (List Char × List Char)) (k : Nat)
    (pr : List Char × List Char) (h : r.get? k = some pr) :
    sumTailLens r k = pr.1.length + sumTailLens r (k + 1) := by
  obtain ⟨hk, hget⟩ := List.get?_eq_some.1 h
  unfold sumTailLens
  rw [List.drop_eq_get_cons hk, hget]
  simp

theorem sumTailLens_of_len_le (r : List (List Char × List Char)) (k : Nat)
    (h : r.length ≤ k) : sumTailLens r k = 0 := by
  unfold sumTailLens
  rw [List.drop_eq_nil_of_le h]
  rfl

/- The inner `while` of the walk keeps `iend + Σ lengths of the remaining
original-text slices` constant. -/
theorem walkSeek_measure (U : Uni) (cj : Char) (cj1 : Option Char)
    (r : List (List Char × List Char)) :
    ∀ fuel ii iend ii2 iend2, walkSeek U cj cj1 r fuel ii iend = some (ii2, iend2) →
      iend2 + sumTailLens r (ii2 + 1) = iend + sumTailLens r (ii + 1) := by
  intro fuel
  induction fuel with
  | zero => intro ii iend ii2 iend2 h; cases h
  | succ fuel ih =>
    intro ii iend ii2 iend2 h
    simp only [walkSeek] at h
    cases hg : r.get? ii with
    | none => simp only [hg] at h; cases h
    | some pr =>
      simp only [hg] at h
      split at h
      · cases hg2 : r.get? (ii + 1) with
        | none => simp only [hg2] at h; cases h
        | some pr2 =>
          simp only [hg2] at h
          have hrec := ih (ii + 1) (iend + pr2.1.length) ii2 iend2 h
          have hs := sumTailLens_succ r (ii + 1) pr2 hg2
          omega
      · injection h with h
        injection h with h1 h2
        subst h1
        subst h2
        rfl

/- The replacement loop keeps the same measure. -/
theorem walkRep_measure (U : Uni) (r : List (List Char × List Char)) :
    ∀ (n : Nat) (rep : List Char), rep.length ≤ n →
      ∀ ii iend abbr ii2 iend2 abbr2,
        walkRep U r rep ii iend abbr = some (ii2, iend2, abbr2) →
        iend2 + sumTailLens r (ii2 + 1) = iend + sumTailLens r (ii + 1) := by
  intro n
  induction n with
  | zero =>
    intro rep hlen ii iend abbr ii2 iend2 abbr2 h
    have hnil : rep = [] := List.eq_nil_of_length_eq_zero (Nat.le_zero.1 hlen)
    subst hnil
    simp only [walkRep] at h
    injection h with h
    injection h with h1 h
    injection h with h2 h3
    subst h1
    subst h2
    rfl
  | succ n ih =>
    intro rep hlen ii iend abbr ii2 iend2 abbr2 h
    match rep with
    | [] =>
      simp only [walkRep] at h
      injection h with h
      injection h with h1 h
      injection h with h2 h3
      subst h1
      subst h2
      rfl
    | cj :: rest =>
      have hlen' : rest.length ≤ n := by
        simp only [List.length_cons] at hlen
        omega
      simp only [walkRep] at h
      split at h
      · exact ih rest hlen' ii iend (abbr ++ ['.']) ii2 iend2 abbr2 h
      · cases hs : walkSeek U cj rest.head? r (r.length + 1) ii iend with
        | none => simp only [hs] at h; cases h
        | some pr2 =>
          obtain ⟨ii3, iend3⟩ := pr2
          simp only [hs] at h
          have hm1 := walkSeek_measure U cj rest.head? r (r.length + 1) ii iend ii3 iend3 hs
          cases hg : r.get? ii3 with
          | none => simp only [hg] at h; cases h
          | some pr =>
            simp only [hg] at h
            cases hg2 : r.get? (ii3 + 1) with
            | some pr3 =>
              simp only [hg2] at h
              have hs2 := sumTailLens_succ r (ii3 + 1) pr3 hg2
              split at h
              · cases rest with
                | nil =>
                  injection h with h
                  injection h with h1 h
                  injection h with h2 h3
                  subst h1
                  subst h2
                  rw [hs2] at hm1
                  rw [← Nat.add_assoc] at hm1
                  exact hm1
                | cons d rest2 =>
                  have hrec := ih rest2 (by simp only [List.length_cons] at hlen; omega)
                    (ii3 + 1) (iend3 + pr3.1.length) (abbr ++ pr.1) ii2 iend2 abbr2 h
                  omega
              · have hrec := ih rest hlen' (ii3 + 1) (iend3 + pr3.1.length) (abbr ++ pr.1)
                  ii2 iend2 abbr2 h
                omega
            | none =>
              simp only [hg2] at h
              have hoob := List.get?_eq_none.1 hg2
              have hz1 : sumTailLens r (ii3 + 1) = 0 := sumTailLens_of_len_le r (ii3 + 1) hoob
              have hz2 : sumTailLens r (ii3 + 1 + 1) = 0 :=
                sumTailLens_of_len_le r (ii3 + 2) (by omega)
              split at h
              · cases rest with
                | nil =>
                  injection h with h
                  injection h with h1 h
                  injection h with h2 h3
                  subst h1
                  subst h2
                  omega
                | cons d rest2 =>
                  have hrec := ih rest2 (by simp only [List.length_cons] at hlen; omega)
                    (ii3 + 1) iend3 (abbr ++ pr.1) ii2 iend2 abbr2 h
                  omega
              · have hrec := ih rest hlen' (ii3 + 1) iend3 (abbr ++ pr.1)
                  ii2 iend2 abbr2 h
                omega

/- The end offset reported by the full walk is exactly the start offset plus
the total length of the original-text slices of the collating match. -/
theorem walkFull_iend (U : Uni) (rep : List Char) (r : List (List Char × List Char))
    (i : Nat) (abbr : List Char) (iend0 : Nat)
    (h : walkFull U rep r i = some (abbr, iend0)) : iend0 = i + sumTailLens r 0 := by
  unfold walkFull at h
  cases hg : r.get? 0 with
  | none => simp only [hg] at h; cases h
  | some pr0 =>
    simp only [hg] at h
    cases hw : walkRep U r rep 0 (i + pr0.1.length) [] with
    | none => simp only [hw] at h; cases h
    | some res =>
      obtain ⟨ii, iend, abbr3⟩ := res
      simp only [hw] at h
      injection h with h
      injection h with h1 h2
      have hm := walkRep_measure U r rep.length rep (Nat.le_refl _) 0 (i + pr0.1.length) []
        ii iend abbr3 hw
      have hs0 := sumTailLens_succ r 0 pr0 hg
      omega

theorem sumTailLens_zero_eq (r : List (List Char × List Char)) :
    sumTailLens r 0 = ((r.map Prod.fst).flatten).length := by
  unfold sumTailLens
  rw [List.drop_zero, List.length_flatten, List.map_map]
  rfl

/- The first column of a collating match never outruns the searched string. -/
theorem gcm_fst_length (U : Uni) (s t : List Char) (r : List (List Char × List Char))
    (h : getCollatingMatch U s t = some r) :
    ((r.map Prod.fst).flatten).length ≤ s.length := by
  obtain ⟨rest, hr⟩ := (gcmGo_props U _ s t r h).2.1
  have h2 := congrArg List.length hr
  simp only [List.length_append] at h2
  omega

theorem appendixAt_le (k : Nat) (sfx app : List Char) (h : appendixAt k sfx = some app) :
    app.length ≤ sfx.length := by
  unfold appendixAt at h
  split at h <;> dsimp only at h <;> split at h
  · injection h with h
    subst h
    simp only [List.length_take]
    omega
  · cases h
  · injection h with h
    subst h
    simp only [List.length_take]
    omega
  · cases h

theorem appendixMatch_le (sfx app : List Char) (h : appendixMatch sfx = some app) :
    app.length ≤ sfx.length := by
  unfold appendixMatch at h
  rcases orElse_some_elim _ _ _ h with h1 | ⟨-, h1⟩
  · exact appendixAt_le 3 sfx app h1
  · rcases orElse_some_elim _ _ _ h1 with h2 | ⟨-, h2⟩
    · exact appendixAt_le 2 sfx app h2
    · rcases orElse_some_elim _ _ _ h2 with h3 | ⟨-, h3⟩
      · exact appendixAt_le 1 sfx app h3
      · exact appendixAt_le 0 sfx app h3

/- Every match reported by the position loop ends within the searched
string. -/
theorem gpmLoop_span (U : Uni) (value : List Char) (pat : LTWAPattern)
    (p rep : List Char) (sA eE : Bool) :
    ∀ fuel i prevBnd ms, gpmLoop U value pat p rep sA eE fuel i prevBnd = some ms →
      ∀ m ∈ ms, m.iend ≤ value.length := by
  intro fuel
  induction fuel with
  | zero => intro i prevBnd ms h; cases h
  | succ fuel ih =>
    intro i prevBnd ms h
    simp only [gpmLoop] at h
    cases hg : value.get? i with
    | none =>
      simp only [hg] at h
      injection h with h
      subst h
      intro m hm
      cases hm
    | some ci =>
      simp only [hg] at h
      split at h
      · exact ih (i + 1) (isBoundary ci) ms h
      · cases hgcm : getCollatingMatch U (value.drop i) p with
        | none =>
          simp only [hgcm] at h
          exact ih (i + 1) (isBoundary ci) ms h
        | some r =>
          simp only [hgcm] at h
          cases hwf : walkFull U rep r i with
          | none => simp only [hwf] at h; cases h
          | some pr =>
            obtain ⟨abbr0, iend0⟩ := pr
            simp only [hwf] at h
            have hiend0 : iend0 ≤ value.length := by
              have h1 := walkFull_iend U rep r i abbr0 iend0 hwf
              have h2 := sumTailLens_zero_eq r
              have h3 := gcm_fst_length U (value.drop i) p r hgcm
              have h4 := List.length_drop i value
              have hi : i < value.length := (List.get?_eq_some.1 hg).1
              omega
            split at h
            · cases hrec : gpmLoop U value pat p rep sA eE fuel (i + 1) (isBoundary ci) with
              | none => simp only [hrec] at h; cases h
              | some ms2 =>
                simp only [hrec, Option.map_some'] at h
                injection h with h
                subst h
                intro m hm
                rcases List.mem_cons.1 hm with rfl | hm2
                · show iend0 + ((value.drop iend0).takeWhile (fun c => !isBoundary c)).length ≤
                    value.length
                  have h5 : ((value.drop iend0).takeWhile (fun c => !isBoundary c)).length ≤
                      (value.drop iend0).length := by
                    have hsub : List.Sublist ((value.drop iend0).takeWhile
                        (fun c => !isBoundary c)) (value.drop iend0) :=
                      List.takeWhile_sublist (fun c => !isBoundary c)
                    exact hsub.length_le
                  have h6 := List.length_drop iend0 value
                  omega
                · exact ih (i + 1) (isBoundary ci) ms2 hrec m hm2
            · cases happ : appendixMatch (value.drop iend0) with
              | none =>
                simp only [happ] at h
                exact ih (i + 1) (isBoundary ci) ms h
              | some app =>
                simp only [happ] at h
                cases hrec : gpmLoop U value pat p rep sA eE fuel (i + 1) (isBoundary ci) with
                | none => simp only [hrec] at h; cases h
                | some ms2 =>
                  simp only [hrec, Option.map_some'] at h
                  injection h with h
                  subst h
                  intro m hm
                  rcases List.mem_cons.1 hm with rfl | hm2
                  · show iend0 + app.length ≤ value.length
                    have h5 := appendixMatch_le (value.drop iend0) app happ
                    have h6 := List.length_drop iend0 value
                    omega
                  · exact ih (i + 1) (isBoundary ci) ms2 hrec m hm2

theorem getPatternMatches_span (U : Uni) (value : List Char) (pat : LTWAPattern)
    (languages : Option (List (List Char))) (pd : Bool) (ms : List MatchT)
    (h : getPatternMatches U value pat languages pd = some ms) :
    ∀ m ∈ ms, m.iend ≤ value.length := by
  unfold getPatternMatches at h
  dsimp only at h
  split at h
  · injection h with h
    subst h
    intro m hm
    cases hm
  · exact gpmLoop_span U value pat (gpmPBody pat pd) (gpmRep pat pd)
      (!pat.startDash && !pd) (pat.endDash || pd) (value.length + 1) 0 true ms h

theorem collect_foldl_none (U : Uni) (value : List Char)
    (languages : Option (List (List Char))) :
    ∀ (pats : List LTWAPattern),
      pats.foldl
        (fun acc pat =>
          acc.bind (fun ms =>
            (getPatternMatches U value pat languages false).map (fun ms2 => ms ++ ms2)))
        none = none := by
  intro pats
  induction pats with
  | nil => rfl
  | cons p ps ih =>
    simp only [List.foldl_cons, Option.none_bind]
    exact ih

theorem collect_foldl_span (U : Uni) (value : List Char)
    (languages : Option (List (List Char))) :
    ∀ (pats : List LTWAPattern) (acc ms : List MatchT),
      pats.foldl
        (fun acc pat =>
          acc.bind (fun ms =>
            (getPatternMatches U value pat languages false).map (fun ms2 => ms ++ ms2)))
        (some acc) = some ms →
      (∀ m ∈ acc, m.iend ≤ value.length) → ∀ m ∈ ms, m.iend ≤ value.length := by
  intro pats
  induction pats with
  | nil =>
    intro acc ms h hacc
    injection h with h
    subst h
    exact hacc
  | cons p ps ih =>
    intro acc ms h hacc
    simp only [List.foldl_cons, Option.some_bind] at h
    cases hg : getPatternMatches U value p languages false with
    | none =>
      rw [hg] at h
      simp only [Option.map_none'] at h
      rw [collect_foldl_none U value languages ps] at h
      cases h
    | some ms1 =>
      rw [hg] at h
      simp only [Option.map_some'] at h
      refine ih (acc ++ ms1) ms h ?_
      intro m hm
      rcases List.mem_append.1 hm with hm1 | hm1
      · exact hacc m hm1
      · exact getPatternMatches_span U value p languages false ms1 hg m hm1

theorem collectMatches_span (U : Uni) (value : List Char)
    (pats : List LTWAPattern) (languages : Option (List (List Char)))
    (ms : List MatchT) (h : collectMatches U value pats languages = some ms) :
    ∀ m ∈ ms, m.iend ≤ value.length := by
  unfold collectMatches at h
  exact collect_foldl_span U value languages pats [] ms h (fun m hm => by cases hm)

/- A stable insertion sort w.r.t. a total transitive comparator produces a
pairwise-sorted list. -/
theorem insertSorted_pairwise {α} (le : α → α → Bool)
    (htot : ∀ a b, le a b = true ∨ le b a = true)
    (htr : ∀ a b c, le a b = true → le b c = true → le a c = true) (x : α) :
    ∀ l, List.Pairwise (fun a b => le a b = true) l →
      List.Pairwise (fun a b => le a b = true) (insertSorted le x l) := by
  intro l
  induction l with
  | nil =>
    intro h
    simp [insertSorted]
  | cons y ys ih =>
    intro h
    obtain ⟨hy, hys⟩ := List.pairwise_cons.1 h
    simp only [insertSorted]
    by_cases hle : le y x = true
    · rw [if_pos hle]
      refine List.pairwise_cons.2 ⟨?_, ih hys⟩
      intro b hb
      have hb2 : b ∈ x :: ys := (insertSorted_perm le x ys).mem_iff.1 hb
      rcases List.mem_cons.1 hb2 with rfl | hmem
      · exact hle
      · exact hy b hmem
    · rw [if_neg hle]
      have hxy : le x y = true := (htot x y).resolve_right hle
      refine List.pairwise_cons.2 ⟨?_, h⟩
      intro b hb
      rcases List.mem_cons.1 hb with rfl | hmem
      · exact hxy
      · exact htr x y b hxy (hy b hmem)

theorem stableSort_pairwise {α} (le : α → α → Bool)
    (htot : ∀ a b, le a b = true ∨ le b a = true)
    (htr : ∀ a b c, le a b = true → le b c = true → le a c = true) (l : List α) :
    List.Pairwise (fun a b => le a b = true) (stableSort le l) := by
  unfold stableSort
  suffices hgen : ∀ (l2 acc : List α), List.Pairwise (fun a b => le a b = true) acc →
      List.Pairwise (fun a b => le a b = true)
        (l2.foldl (fun a x => insertSorted le x a) acc) by
    exact hgen l [] List.Pairwise.nil
  intro l2
  induction l2 with
  | nil => intro acc h; exact h
  | cons x xs ih =>
    intro acc h
    simp only [List.foldl_cons]
    exact ih (insertSorted le x acc) (insertSorted_pairwise le htot htr x acc h)

theorem strictIntersect_false_elim (a b : MatchT) (h : strictIntersect a b = false) :
    a.iend ≤ b.i ∨ b.iend ≤ a.i := by
  unfold strictIntersect at h
  rcases Bool.and_eq_false_iff.1 h with h1 | h1 <;>
    rw [decide_eq_false_iff_not] at h1
  · left; omega
  · right; omega

theorem strictIntersect_symm_false (a b : MatchT) (h : strictIntersect a b = false) :
    strictIntersect b a = false := by
  unfold strictIntersect at h ⊢
  rw [Bool.and_comm]
  exact h

/- The application fold: with matches sorted by start descending, pairwise
non-overlapping, and contained in the string, the result never grows. -/
theorem applyMatches_length_le : ∀ (ms : List MatchT) (res : List Char),
    (∀ k ∈ ms, k.iend ≤ res.length) →
    List.Pairwise (fun a b => b.i ≤ a.i) ms →
    List.Pairwise (fun a b => strictIntersect a b = false) ms →
    (applyMatches res ms).length ≤ res.length := by
  intro ms
  induction ms with
  | nil => intro res h1 h2 h3; exact Nat.le_refl _
  | cons m ms ih =>
    intro res hin hdesc hni
    obtain ⟨hd1, hdesc2⟩ := List.pairwise_cons.1 hdesc
    obtain ⟨hn1, hni2⟩ := List.pairwise_cons.1 hni
    show (applyMatches (applyMatch res m) ms).length ≤ res.length
    by_cases happ : m.abbr.length < m.iend - m.i
    · have hm := hin m (List.mem_cons_self m ms)
      have hmi : m.i < m.iend := by omega
      have hlen : (applyMatch res m).length = m.i + m.abbr.length + (res.length - m.iend) := by
        unfold applyMatch
        rw [if_pos happ]
        simp only [List.length_append, List.length_take, List.length_drop]
        omega
      have hless : (applyMatch res m).length < res.length := by omega
      have hin2 : ∀ k ∈ ms, k.iend ≤ (applyMatch res m).length := by
        intro k hk
        have hk1 : k.i ≤ m.i := hd1 k hk
        rcases strictIntersect_false_elim m k (hn1 k hk) with h1 | h1
        · omega
        · omega
      exact le_trans (ih (applyMatch res m) hin2 hdesc2 hni2) (Nat.le_of_lt hless)
    · have heq : applyMatch res m = res := by
        unfold applyMatch
        rw [if_neg happ]
      rw [heq]
      exact ih res (fun k hk => hin k (List.mem_cons_of_mem m hk)) hdesc2 hni2

/-- C3: a surviving match is substituted only when `len(abbr) < iend - i`
(`applyMatch` is a no-op whenever the abbreviation does not strictly shorten
the span), and for every title on which `makeAbbreviation` returns a result,
the result is at most as long as the punctuation-normalized, trimmed,
NFC-normalized input. -/
theorem makeAbbreviation_length_le (U : Uni) (e : Engine) (value : List Char)
    (languages : Option (List (List Char))) (patterns : Option (List LTWAPattern))
    (out : List Char) (h : makeAbbreviation U e value languages patterns = some out) :
    (∀ (res : List Char) (m : MatchT), m.iend - m.i ≤ m.abbr.length →
      applyMatch res m = res) ∧
    out.length ≤ (punctuationNormalize (jsTrim (U.nfc value))).length := by
  constructor
  · intro res m hm
    unfold applyMatch
    rw [if_neg (by omega)]
  · have hr4 : (plannerPrelude U value).length ≤
        (punctuationNormalize (jsTrim (U.nfc value))).length := by
      unfold plannerPrelude
      refine le_trans (runScan_length_le stepFrench stepFrench_bound _) ?_
      refine le_trans (removeShortWords_length_le U _ articles true) ?_
      exact runScan_length_le stepSep stepSep_bound _
    simp only [makeAbbreviation] at h
    split at h
    · have h5 := Option.some.inj h
      subst h5
      have h1 := jsTrim_length_le (collapseWs (plannerPrelude U value))
      have h2 : (collapseWs (plannerPrelude U value)).length ≤
          (plannerPrelude U value).length := collapseWsGo_length_le _ false
      omega
    · cases hc : collectMatches U (plannerPrelude U value)
          (patterns.getD (getPotentialPatterns U e value false)) languages with
      | none => rw [hc] at h; cases h
      | some ms =>
        rw [hc] at h
        simp only [Option.map_some'] at h
        have h5 := Option.some.inj h
        subst h5
        have hspan : ∀ m ∈ ms, m.iend ≤ (plannerPrelude U value).length :=
          collectMatches_span U (plannerPrelude U value) _ languages ms hc
        have hfmem : ∀ m ∈ sortedByStartDesc (overlapResolved ms), m ∈ ms := by
          intro m hm
          have h1 : m ∈ overlapResolved ms :=
            ((stableSort_perm (fun a b : MatchT => decide (b.i ≤ a.i)) (overlapResolved ms)).mem_iff).1 hm
          have h2 : m ∈ sortedByPriority ms := resolveGo_mem _ _ m h1
          exact ((stableSort_perm (fun a b : MatchT => decide (getPriority a ≤ getPriority b)) ms).mem_iff).1 h2
        have hin : ∀ m ∈ sortedByStartDesc (overlapResolved ms),
            m.iend ≤ (plannerPrelude U value).length :=
          fun m hm => hspan m (hfmem m hm)
        have hdesc : List.Pairwise (fun a b : MatchT => b.i ≤ a.i)
            (sortedByStartDesc (overlapResolved ms)) := by
          have h1 := stableSort_pairwise (fun a b : MatchT => decide (b.i ≤ a.i))
            (fun a b => by
              rcases Nat.le_total b.i a.i with h | h
              · left; exact decide_eq_true h
              · right; exact decide_eq_true h)
            (fun a b c h1 h2 => by
              rw [decide_eq_true_eq] at h1 h2 ⊢
              omega)
            (overlapResolved ms)
          exact h1.imp (fun hab => of_decide_eq_true hab)
        have hni : List.Pairwise (fun a b : MatchT => strictIntersect a b = false)
            (sortedByStartDesc (overlapResolved ms)) := by
          have h0 : List.Pairwise (fun a b : MatchT => strictIntersect a b = false)
              (overlapResolved ms) :=
            resolveGo_pairwise _ _ (Nat.lt_succ_self _)
          exact ((stableSort_perm (fun a b : MatchT => decide (b.i ≤ a.i))
            (overlapResolved ms)).pairwise_iff
              (fun hab => strictIntersect_symm_false _ _ hab)).2 h0
        have happ := applyMatches_length_le (sortedByStartDesc (overlapResolved ms))
          (plannerPrelude U value) hin hdesc hni
        have h1 := jsTrim_length_le (collapseWs (removeShortWords U
          (applyMatches (plannerPrelude U value) (sortedByStartDesc (overlapResolved ms)))
          e.shortWords false))
        have h2 : (collapseWs (removeShortWords U
            (applyMatches (plannerPrelude U value) (sortedByStartDesc (overlapResolved ms)))
            e.shortWords false)).length ≤
            (removeShortWords U
              (applyMatches (plannerPrelude U value) (sortedByStartDesc (overlapResolved ms)))
              e.shortWords false).length := collapseWsGo_length_le _ false
        have h3 := removeShortWords_length_le U
          (applyMatches (plannerPrelude U value) (sortedByStartDesc (overlapResolved ms)))
          e.shortWords false
        omega

/-- Witness for C3: on the title `"ab"` with an empty engine the abbreviation
is returned and is no longer than the punctuation-normalized trimmed input. -/
theorem makeAbbreviation_length_le_witness :
    (∀ (res : List Char) (m : MatchT), m.iend - m.i ≤ m.abbr.length →
      applyMatch res m = res) ∧
    ("ab".data).length ≤ (punctuationNormalize (jsTrim (asciiUni.nfc "ab".data))).length :=
  makeAbbreviation_length_le asciiUni ⟨[], PTree.empty, PTree.empty, 0, []⟩ "ab".data
    none none "ab".data (by decide)

end AbbrevIsoFV
